import Mathlib

/-!
Shallow embedding of the integer-base-arithmetic repository.

The C sources model arbitrary-precision integers (`big_integer`) as a sign flag
plus a fixed-length little-endian byte buffer (`uint8_t *mem`).  We embed a byte
buffer as a `List Nat` whose entries are byte values; every write goes through
`% 256`, mirroring the `uint8_t` truncation of the C code.  Reads out of bounds
return 0 and writes out of bounds are dropped (`List.set` semantics); in-contract
executions never perform them, matching the sizing contracts of the source.
-/

namespace IntBaseArith

/-- Little-endian value of a byte list: index 0 is the least significant byte
(mirrors the `mem` layout documented in big_integer.c). -/
def valLE : List Nat → Nat
  | [] => 0
  | x :: xs => x + 256 * valLE xs

/-- The `k` low-order bytes of `n`, little-endian. -/
def natLEBytes : Nat → Nat → List Nat
  | 0, _ => []
  | k + 1, n => n % 256 :: natLEBytes k (n / 256)

/-- Well-formedness of a byte buffer: every entry is a byte value. -/
def WfBytes (l : List Nat) : Prop := ∀ x ∈ l, x < 256

instance : DecidablePred WfBytes := fun l =>
  decidable_of_iff (∀ x ∈ l, x < 256) Iff.rfl

/-!
## The big_integer data model (big_integer.h / big_integer.c)

`struct big_integer { bool sign; size_t length; uint8_t *mem; }` — the length
field always equals the number of allocated bytes, so we keep `mem` as a list
and let `length` be its list length.
-/

structure big_integer where
  sign : Bool
  mem : List Nat
  deriving Repr, DecidableEq

/-- Number of bytes of the magnitude buffer (`length` field of the struct). -/
def big_integer.length (a : big_integer) : Nat := a.mem.length

/-- Well-formed big_integer: the buffer holds byte values, as `uint8_t *mem`
guarantees in C. -/
def big_integer.Wf (a : big_integer) : Prop := WfBytes a.mem

instance : DecidablePred big_integer.Wf := fun a =>
  inferInstanceAs (Decidable (WfBytes a.mem))

/-- Signed integer value denoted by a big_integer (sign-magnitude). -/
def big_integer.val (a : big_integer) : Int :=
  if a.sign then -(valLE a.mem : Int) else (valLE a.mem : Int)

/-- C function `create_big_integer`: zero-initialized buffer of `bytes` bytes. -/
def create_big_integer (bytes : Nat) (sign : Bool) : big_integer :=
  { sign := sign, mem := List.replicate bytes 0 }

/-- C function `get_byte_value_of_big_integer` (in-contract indices are in
bounds; an out-of-bounds read returns 0 in the model). -/
def get_byte_value_of_big_integer (a : big_integer) (index : Nat) : Nat :=
  a.mem.getD index 0

/-- C function `set_byte_value_of_big_integer`; the `uint8_t value` parameter
truncates whatever integer the caller passes, hence the `% 256`. -/
def set_byte_value_of_big_integer (a : big_integer) (index : Nat) (value : Nat) :
    big_integer :=
  { a with mem := a.mem.set index (value % 256) }

/-- C function `set_bit_value_of_big_integer`: read byte `bit_index / 8`,
set or clear bit `bit_index % 8`, write it back. -/
def set_bit_value_of_big_integer (a : big_integer) (bit_index : Nat) (value : Bool) :
    big_integer :=
  let byte := get_byte_value_of_big_integer a (bit_index / 8)
  let i := bit_index % 8
  let byte' := if value then byte ||| (1 <<< i) else byte &&& (255 - (1 <<< i) % 256)
  set_byte_value_of_big_integer a (bit_index / 8) byte'

/-- C function `get_most_significant_bit`: bit 7 of the last buffer byte. -/
def get_most_significant_bit (a : big_integer) : Bool :=
  get_byte_value_of_big_integer a (a.length - 1) / 128 % 2 = 1

/-- C function `set_zero`: zero every byte and clear the sign. -/
def set_zero (a : big_integer) : big_integer :=
  { sign := false, mem := List.replicate a.mem.length 0 }

/-- C function `clone_big_integer`. -/
def clone_big_integer (a : big_integer) : big_integer := a

/-- C function `clone_big_integer_add_size`: same value with `add_size` extra
high-order zero bytes. -/
def clone_big_integer_add_size (a : big_integer) (add_size : Nat) : big_integer :=
  { sign := a.sign, mem := a.mem ++ List.replicate add_size 0 }

/-- C function `copy_big_integer_value_into_another`: clear destination, copy
sign, copy `min (src.length) (dst.length)` bytes (excess magnitude silently
truncated). -/
def copy_big_integer_value_into_another (source destination : big_integer) :
    big_integer :=
  { sign := source.sign,
    mem := source.mem.take (min source.mem.length destination.mem.length) ++
      List.replicate (destination.mem.length - source.mem.length) 0 }

/-- C function `negate_big_integer`: flip the sign bit. -/
def negate_big_integer (a : big_integer) : big_integer :=
  { a with sign := !a.sign }

/-- C function `big_integer_is_zero` (sequential path): every byte zero. -/
def big_integer_is_zero_sisd (a : big_integer) : Bool :=
  a.mem.all (· = 0)

/-- C function `big_integer_is_zero_simd`: 15-byte, then 7-byte, then 1-byte
zero tests.  A chunk is zero iff its little-endian value is zero, which is how
the `_mm_testz_si128` / `uint64_t` comparisons behave. -/
def big_integer_is_zero_simd_go : Nat → List Nat → Bool
  | 0, l => l.all (· = 0)
  | fuel + 1, l =>
    if 15 ≤ l.length then
      if valLE (l.take 15) ≠ 0 then false
      else big_integer_is_zero_simd_go fuel (l.drop 15)
    else if 7 ≤ l.length then
      if valLE (l.take 7) ≠ 0 then false
      else big_integer_is_zero_simd_go fuel (l.drop 7)
    else l.all (· = 0)

def big_integer_is_zero_simd (a : big_integer) : Bool :=
  big_integer_is_zero_simd_go a.mem.length a.mem

/-- C function `big_integer_is_zero`: dispatch on the simd flag. -/
def big_integer_is_zero (a : big_integer) (simd : Bool) : Bool :=
  if simd then big_integer_is_zero_simd a else big_integer_is_zero_sisd a

/-- C function `big_integer_is_equal` (big_integer.c): sign compared first,
then the both-zero shortcut, then a byte-wise scan padding the shorter buffer
with zeros. -/
def big_integer_is_equal (a b : big_integer) : Bool :=
  if a.sign ≠ b.sign then false
  else if big_integer_is_zero_simd a ∧ big_integer_is_zero_simd b then true
  else (List.range (max a.mem.length b.mem.length)).all fun i =>
    a.mem.getD i 0 = b.mem.getD i 0

/-!
## Sequential addition and subtraction (big_integer_arithmetic.c)

The C loops run over the bytes of operand `a`, reading a byte of `b` while one
is available.  Byte sums are formed in `uint16_t`; since both inputs are bytes
and the carry is a bit, the 16-bit intermediate never wraps, so we use plain
`Nat` arithmetic with the same `>> 8 & 1` carry extraction.
-/

/-- Loop body of `big_integer_addition_sisd`: returns the rewritten bytes of
`a` and the final carry bit. -/
def addition_sisd_loop : List Nat → List Nat → Nat → List Nat × Nat
  | [], _, carry => ([], carry)
  | a :: as, [], carry =>
    let res := a + carry
    let rest := addition_sisd_loop as [] (res / 256 % 2)
    (res % 256 :: rest.1, rest.2)
  | a :: as, b :: bs, carry =>
    let res := a + b + carry
    let rest := addition_sisd_loop as bs (res / 256 % 2)
    (res % 256 :: rest.1, rest.2)

/-- C function `big_integer_addition_sisd` (the final carry is only a logged
diagnostic in C; we keep the bytes). -/
def big_integer_addition_sisd (a b : big_integer) : big_integer :=
  { a with mem := (addition_sisd_loop a.mem b.mem 0).1 }

/-- Loop body of `big_integer_subtraction_sisd`: `uint16_t res = a - b - borrow`
wraps modulo 2^16 and the borrow is its bit 15. -/
def subtraction_sisd_loop : List Nat → List Nat → Nat → List Nat × Nat
  | [], _, borrow => ([], borrow)
  | a :: as, [], borrow =>
    let res := (65536 + a - borrow) % 65536
    let rest := subtraction_sisd_loop as [] (res / 32768 % 2)
    (res % 256 :: rest.1, rest.2)
  | a :: as, b :: bs, borrow =>
    let res := (65536 + a - b - borrow) % 65536
    let rest := subtraction_sisd_loop as bs (res / 32768 % 2)
    (res % 256 :: rest.1, rest.2)

/-- C function `big_integer_subtraction_sisd`. -/
def big_integer_subtraction_sisd (a b : big_integer) : big_integer :=
  { a with mem := (subtraction_sisd_loop a.mem b.mem 0).1 }

/-!
## SIMD addition and subtraction (big_integer_arithmetic.c)

`get_15_bytes__of_big_integer` loads 15 bytes into the low bytes of an
`__m128i`; we model the two 64-bit lanes as the little-endian values of bytes
0–7 (low lane) and bytes 8–14 (high lane, byte 15 being zero).  The source
compares unsigned 64-bit lanes by first biasing with `2^63` and using the
signed `_mm_cmpgt_epi64`; `toSigned64` interprets a 64-bit lane in two's
complement so the bias trick is modelled literally.
-/

/-- Two's-complement reading of a 64-bit lane. -/
def toSigned64 (x : Nat) : Int :=
  if x < 2 ^ 63 then (x : Int) else (x : Int) - 2 ^ 64

/-- The lane-level computation of one 15-byte iteration of
`big_integer_addition_simd`: given the two lanes of each operand and the
incoming carry bit, produce the 15 result bytes and the outgoing carry
(bit 8 of `_mm_extract_epi16(result, 7)`). -/
def addition_simd_chunk (aBytes bBytes : List Nat) (carry : Nat) :
    List Nat × Nat :=
  let aLow := valLE (aBytes.take 8)
  let aHigh := valLE (aBytes.drop 8)
  let bLow := valLE (bBytes.take 8)
  let bHigh := valLE (bBytes.drop 8)
  let aLowMax := aLow = 2 ^ 64 - 1
  let bLowMax := bLow = 2 ^ 64 - 1
  -- _mm_add_epi64 on both lanes, plus the carry in the low lane
  let resultLow := (aLow + bLow + carry) % 2 ^ 64
  let resultHigh0 := (aHigh + bHigh) % 2 ^ 64
  -- unsigned comparison via the 2^63 bias and signed compare
  let stdCarry :=
    toSigned64 ((aLow + 2 ^ 64 - 2 ^ 63) % 2 ^ 64) >
      toSigned64 ((resultLow + 2 ^ 64 - 2 ^ 63) % 2 ^ 64) ∨
    toSigned64 ((bLow + 2 ^ 64 - 2 ^ 63) % 2 ^ 64) >
      toSigned64 ((resultLow + 2 ^ 64 - 2 ^ 63) % 2 ^ 64)
  let maxCarry := aLowMax ∧ bLowMax ∧ carry = 1
  let carryHappens := stdCarry ∨ maxCarry
  let resultHigh := if carryHappens then (resultHigh0 + 1) % 2 ^ 64 else resultHigh0
  let highestBytes := resultHigh / 2 ^ 48 % 2 ^ 16
  (natLEBytes 8 resultLow ++ natLEBytes 7 resultHigh, highestBytes / 2 ^ 8 % 2)

/-- The loops of `big_integer_addition_simd`: 15 bytes at a time while both
operands have 15 bytes left, then 7 bytes at a time, then byte-wise.  The
loops are primitive recursion on a fuel that the wrapper sets to `a.length`,
which bounds the iteration count; the fuel-exhaustion branch is unreachable
(each chunk iteration consumes at least 7 bytes of `a`). -/
def addition_simd_go : Nat → List Nat → List Nat → Nat → List Nat × Nat
  | 0, a, b, carry => addition_sisd_loop a b carry
  | fuel + 1, a, b, carry =>
    if 15 ≤ a.length ∧ 15 ≤ b.length then
      let chunk := addition_simd_chunk (a.take 15) (b.take 15) carry
      let rest := addition_simd_go fuel (a.drop 15) (b.drop 15) chunk.2
      (chunk.1 ++ rest.1, rest.2)
    else if 7 ≤ a.length ∧ 7 ≤ b.length then
      -- 7 bytes in a zero-extended uint64; bit 56 of the sum is the carry
      let sum := (valLE (a.take 7) + valLE (b.take 7) + carry) % 2 ^ 64
      let rest := addition_simd_go fuel (a.drop 7) (b.drop 7) (sum / 2 ^ 56 % 2)
      (natLEBytes 7 sum ++ rest.1, rest.2)
    else addition_sisd_loop a b carry

/-- C function `big_integer_addition_simd`. -/
def big_integer_addition_simd (a b : big_integer) : big_integer :=
  { a with mem := (addition_simd_go a.mem.length a.mem b.mem 0).1 }

/-- The lane-level computation of one 15-byte iteration of
`big_integer_subtraction_simd`; the outgoing borrow is bit 15 of
`_mm_extract_epi16(result, 7)`. -/
def subtraction_simd_chunk (aBytes bBytes : List Nat) (borrow : Nat) :
    List Nat × Nat :=
  let aLow := valLE (aBytes.take 8)
  let aHigh := valLE (aBytes.drop 8)
  let bLow := valLE (bBytes.take 8)
  let bHigh := valLE (bBytes.drop 8)
  let bLowMax := bLow = 2 ^ 64 - 1
  -- _mm_sub_epi64 on both lanes, then the borrow subtracted from the low lane
  let resultLow := ((aLow + 2 ^ 64 - bLow) % 2 ^ 64 + 2 ^ 64 - borrow) % 2 ^ 64
  let resultHigh0 := (aHigh + 2 ^ 64 - bHigh) % 2 ^ 64
  let stdBorrow :=
    toSigned64 ((resultLow + 2 ^ 64 - 2 ^ 63) % 2 ^ 64) >
      toSigned64 ((aLow + 2 ^ 64 - 2 ^ 63) % 2 ^ 64)
  let maxBorrow := bLowMax ∧ borrow = 1
  let borrowHappens := stdBorrow ∨ maxBorrow
  let resultHigh :=
    if borrowHappens then (resultHigh0 + 2 ^ 64 - 1) % 2 ^ 64 else resultHigh0
  let highestBytes := resultHigh / 2 ^ 48 % 2 ^ 16
  (natLEBytes 8 resultLow ++ natLEBytes 7 resultHigh, highestBytes / 2 ^ 15 % 2)

/-- The loops of `big_integer_subtraction_simd`, with the same fuel scheme as
the addition loops. -/
def subtraction_simd_go : Nat → List Nat → List Nat → Nat → List Nat × Nat
  | 0, a, b, borrow => subtraction_sisd_loop a b borrow
  | fuel + 1, a, b, borrow =>
    if 15 ≤ a.length ∧ 15 ≤ b.length then
      let chunk := subtraction_simd_chunk (a.take 15) (b.take 15) borrow
      let rest := subtraction_simd_go fuel (a.drop 15) (b.drop 15) chunk.2
      (chunk.1 ++ rest.1, rest.2)
    else if 7 ≤ a.length ∧ 7 ≤ b.length then
      -- uint64_t res = a - b; res -= borrow; borrow = (res >> 56) & 1
      let res := ((valLE (a.take 7) + 2 ^ 64 - valLE (b.take 7)) % 2 ^ 64 +
        2 ^ 64 - borrow) % 2 ^ 64
      let rest := subtraction_simd_go fuel (a.drop 7) (b.drop 7) (res / 2 ^ 56 % 2)
      (natLEBytes 7 res ++ rest.1, rest.2)
    else subtraction_sisd_loop a b borrow

/-- C function `big_integer_subtraction_simd`. -/
def big_integer_subtraction_simd (a b : big_integer) : big_integer :=
  { a with mem := (subtraction_simd_go a.mem.length a.mem b.mem 0).1 }

/-!
## Comparisons (big_integer_arithmetic.c)
-/

/-- The scan loop of `positive_big_integer_is_greater_than`, from byte `i - 1`
down to byte 0.  The C body's three cases (a longer, b longer, both present)
all compare the zero-padded bytes, continuing on equality. -/
def gt_scan (a b : List Nat) : Nat → Bool
  | 0 => false
  | i + 1 =>
    let a_byte := a.getD i 0
    let b_byte := b.getD i 0
    if a_byte = b_byte then gt_scan a b i else decide (a_byte > b_byte)

/-- C function `positive_big_integer_is_greater_than`.  Precondition (enforced
by `abort_err` in C): both signs positive; all call sites satisfy it. -/
def positive_big_integer_is_greater_than (a b : big_integer) (simd : Bool) : Bool :=
  let a_zero := big_integer_is_zero a simd
  let b_zero := big_integer_is_zero b simd
  if a_zero ∧ b_zero then false
  else if a_zero ∧ !b.sign then false
  else gt_scan a.mem b.mem (max a.mem.length b.mem.length)

/-- C function `big_integer_greater_equal_int16` (`b` is `int16_t`, contract
range [-256;256]).  After the zero/sign short-circuits it compares byte 0
against `b` and scans bytes 1.. for a nonzero differentiator; the scan returns
at the first nonzero byte (true when positive, false when negative), which is
what the `any` formulation expresses. -/
def big_integer_greater_equal_int16 (a : big_integer) (b : Int) (simd : Bool) : Bool :=
  let a_zero := big_integer_is_zero a simd
  if a_zero ∧ b = 0 then true
  else if a_zero ∧ b < 0 then true
  else if a_zero ∧ b > 0 then false
  else if a.sign ∧ b ≥ 0 then false
  else if !a.sign ∧ b ≤ 0 then true
  else
    let first_byte : Int := get_byte_value_of_big_integer a 0
    if !a.sign ∧ first_byte = b then true
    else if !a.sign ∧ first_byte > b then true
    else if a.sign ∧ first_byte > b then false
    else
      let anyHigh := (a.mem.drop 1).any (· ≠ 0)
      if a.sign then !anyHigh else anyHigh

/-!
## Signed addition and subtraction dispatch (big_integer_arithmetic.c)

`big_integer_addition` and `big_integer_subtraction` are mutually recursive in
C, but every recursive call is made with both signs already cleared, so each
inner call lands in the both-positive branch.  We therefore define the
both-positive subtraction case first and express the dispatchers with it,
which is exactly the call graph the C code realizes.  Since the C functions
mutate both operands in place (the second one temporarily, restoring it from a
clone), the model returns the pair (first operand, second operand) after the
call. -/

/-- Magnitude-level dispatch used by the both-signs-equal branch of
`big_integer_addition`. -/
def addition_same_sign (a b : big_integer) (simd : Bool) : big_integer :=
  if simd then big_integer_addition_simd a b else big_integer_addition_sisd a b

/-- The both-operands-positive branch of `big_integer_subtraction`, including
the `|a| < |b|` swap path that temporarily overwrites `b` and restores it from
a clone.  The recursive call `big_integer_subtraction(value_b, value_a)` made
on the swap path has `value_b > value_a`, so it reduces to the plain magnitude
subtraction, which is inlined here. -/
def subtraction_positive_case (a b : big_integer) (simd : Bool) :
    big_integer × big_integer :=
  if positive_big_integer_is_greater_than b a simd then
    let b_copy := clone_big_integer b
    let b1 := if simd then big_integer_subtraction_simd b a
      else big_integer_subtraction_sisd b a
    let b2 := negate_big_integer b1
    let a' := copy_big_integer_value_into_another b2 a
    let b' := copy_big_integer_value_into_another b_copy b2
    (a', b')
  else
    (if simd then big_integer_subtraction_simd a b
     else big_integer_subtraction_sisd a b, b)

/-- C function `big_integer_addition` (sign normalization, then the magnitude
add).  The mixed-sign branches delegate to the subtraction with both signs
positive. -/
def big_integer_addition (a b : big_integer) (simd : Bool) :
    big_integer × big_integer :=
  if a.sign ∧ !b.sign then
    -- (-a) + b => -(a - b)
    let p := subtraction_positive_case { a with sign := false } b simd
    ({ p.1 with sign := !p.1.sign }, p.2)
  else if !a.sign ∧ b.sign then
    -- a + (-b) => a - b, with b's sign cleared and then restored
    let p := subtraction_positive_case a { b with sign := false } simd
    (p.1, { p.2 with sign := true })
  else
    (addition_same_sign a b simd, b)

/-- In C, `max(0, value_a->length - value_b->length)` computes the difference
in `size_t`, which wraps around when `b` is longer; the helper `max` then
returns the wrapped value unchanged. -/
def size_t_sub (x y : Nat) : Nat :=
  if y ≤ x then x - y else 2 ^ 64 - (y - x)

/-- C function `big_integer_subtraction` (sign normalization; the both-negative
branch computes `|b| - |a|` into an enlarged clone of `b` and moves the result
into `a`). -/
def big_integer_subtraction (a b : big_integer) (simd : Bool) :
    big_integer × big_integer :=
  if !a.sign ∧ b.sign then
    -- a - (-b) => a + b, with b's sign cleared and then restored
    let p := big_integer_addition a { b with sign := false } simd
    (p.1, { p.2 with sign := true })
  else if a.sign ∧ !b.sign then
    -- (-a) - b => -(a + b)
    let p := big_integer_addition { a with sign := false } b simd
    (negate_big_integer p.1, p.2)
  else if a.sign ∧ b.sign then
    -- (-a) - (-b) = b - a, computed into an enlarged positive copy of b
    let a0 := { a with sign := false }
    let b_copy :=
      { clone_big_integer_add_size b (max 0 (size_t_sub a.length b.length)) with
        sign := false }
    let p := subtraction_positive_case b_copy a0 simd
    let a' := copy_big_integer_value_into_another p.1 p.2
    (a', b)
  else
    subtraction_positive_case a b simd

/-!
## Increment, shifts (big_integer_arithmetic.c)
-/

/-- Positive branch of `big_integer_increment`: add 1 byte-wise, stopping at
the first byte that does not carry. -/
def increment_loop_pos : List Nat → List Nat
  | [] => []
  | x :: xs =>
    let inc := x + 1
    if inc / 256 = 0 then inc % 256 :: xs
    else inc % 256 :: increment_loop_pos xs

/-- Negative branch of `big_integer_increment`: the C loop skips zero bytes
and decrements every nonzero byte (there is no `break`). -/
def increment_loop_neg : List Nat → List Nat
  | [] => []
  | x :: xs =>
    if x = 0 then x :: increment_loop_neg xs
    else (x - 1) % 256 :: increment_loop_neg xs

/-- C function `big_integer_increment`. -/
def big_integer_increment (value : big_integer) : big_integer :=
  if !value.sign then { value with mem := increment_loop_pos value.mem }
  else { value with mem := increment_loop_neg value.mem }

/-- Loop of `big_integer_shl_bitwise_0_to_7__sisd`: `uint16_t shifted =
(byte << k) | carry`, write the low byte, propagate the high byte. -/
def shl_bits_sisd_loop : List Nat → Nat → Nat → List Nat
  | [], _, _ => []
  | x :: xs, k, carry =>
    let shifted := (x <<< k) ||| carry
    shifted % 256 :: shl_bits_sisd_loop xs k (shifted / 256 % 256)

/-- C function `big_integer_shl_bitwise_0_to_7__sisd`. -/
def big_integer_shl_bitwise_0_to_7__sisd (value : big_integer) (bit_count : Nat) :
    big_integer :=
  { value with mem := shl_bits_sisd_loop value.mem bit_count 0 }

/-- Loops of `big_integer_shl_bitwise_0_to_7__simd56`: 7 bytes in a 64-bit
word (shift, mask the low 56 bits back, carry is the high byte), then the
byte-wise tail; fuel as in the addition loops. -/
def shl_bits_simd_go : Nat → List Nat → Nat → Nat → List Nat
  | 0, l, k, carry => shl_bits_sisd_loop l k carry
  | fuel + 1, l, k, carry =>
    if 7 ≤ l.length then
      let shifted := (valLE (l.take 7) <<< k) ||| carry
      natLEBytes 7 (shifted &&& (2 ^ 56 - 1)) ++
        shl_bits_simd_go fuel (l.drop 7) k (shifted >>> 56 % 256)
    else shl_bits_sisd_loop l k carry

/-- C function `big_integer_shl_bitwise_0_to_7__simd56`. -/
def big_integer_shl_bitwise_0_to_7__simd56 (value : big_integer) (bit_count : Nat) :
    big_integer :=
  { value with mem := shl_bits_simd_go value.mem.length value.mem bit_count 0 }

/-- C function `big_integer_shl_bitwise_0_to_7`: dispatch on the simd flag. -/
def big_integer_shl_bitwise_0_to_7 (value : big_integer) (bit_count : Nat)
    (simd : Bool) : big_integer :=
  if simd then big_integer_shl_bitwise_0_to_7__simd56 value bit_count
  else big_integer_shl_bitwise_0_to_7__sisd value bit_count

/-- C function `big_integer_shl_byte_wise`: move byte `i` to byte `i + count`
(top bytes lost), zero the low `count` bytes. -/
def big_integer_shl_byte_wise (value : big_integer) (count : Nat) : big_integer :=
  { value with
    mem := List.replicate (min count value.mem.length) 0 ++
      value.mem.take (value.mem.length - count) }

/-!
## Multiplication and division (big_integer_arithmetic.c)
-/

/-- Bit loop of `big_integer_multiply_uint8`, iterating over the listed bit
indices of `mul` with the deferred-shift counter `to_shift`; `result` and
`temp` are threaded because `big_integer_addition` updates both operands in
place. -/
def multiply_uint8_go (simd : Bool) (mul : Nat) :
    List Nat → big_integer → big_integer → Nat → big_integer × big_integer
  | [], result, temp, _ => (result, temp)
  | i :: rest, result, temp, to_shift =>
    if mul >>> i % 2 = 1 then
      let temp' := if i ≠ 0 then
          big_integer_shl_bitwise_0_to_7 temp (1 + to_shift) simd
        else temp
      let p := big_integer_addition result temp' simd
      multiply_uint8_go simd mul rest p.1 p.2 0
    else
      multiply_uint8_go simd mul rest result temp
        (if i ≠ 0 then to_shift + 1 else to_shift)

/-- C function `big_integer_multiply_uint8`: clear `result`, copy `value` into
`temp`, then shift-and-add over the 8 bits of `mul`. -/
def big_integer_multiply_uint8 (value : big_integer) (mul : Nat)
    (result temp : big_integer) (simd : Bool) : big_integer × big_integer :=
  let result0 := set_zero result
  let temp0 := copy_big_integer_value_into_another value temp
  multiply_uint8_go simd mul [0, 1, 2, 3, 4, 5, 6, 7] result0 temp0 0

/-- C function `big_integer_multiply_int_neg256_to_256`: multiply by
`abs(mul)` (passed through the `uint8_t mul` parameter, hence the `% 256`
truncation), then fix the sign of the result. -/
def big_integer_multiply_int_neg256_to_256 (value : big_integer) (mul : Int)
    (result temp : big_integer) (simd : Bool) : big_integer × big_integer :=
  let p := big_integer_multiply_uint8 value (mul.natAbs % 256) result temp simd
  ({ p.1 with sign := (value.sign ∧ mul > 0) ∨ (!value.sign ∧ mul < 0) }, p.2)

/-- Byte loop of `big_integer_multiplication` over the multiplier bytes
`i = 0 .. b.length - 1`, threading `res` and the transients `pp`, `temp`. -/
def multiplication_loop (simd : Bool) (a b : big_integer) :
    List Nat → big_integer × big_integer × big_integer →
      big_integer × big_integer × big_integer
  | [], st => st
  | i :: rest, (res, pp, temp) =>
    let byte := get_byte_value_of_big_integer b i
    if byte = 0 then multiplication_loop simd a b rest (res, pp, temp)
    else
      let q := big_integer_multiply_uint8 a byte pp temp simd
      let pp1 := big_integer_shl_byte_wise q.1 i
      let p := big_integer_addition res pp1 simd
      multiplication_loop simd a b rest (p.1, p.2, q.2)

/-- C function `big_integer_multiplication`: schoolbook multiplication with
transients `pp` (of `res`'s length) and `temp` (of `a`'s length + 1); the
result sign is `a.sign XOR b.sign`. -/
def big_integer_multiplication (a b res : big_integer) (simd : Bool) :
    big_integer :=
  let pp := create_big_integer res.length false
  let temp := create_big_integer (a.length + 1) false
  let st := multiplication_loop simd a b (List.range b.length) (res, pp, temp)
  { st.1 with sign := (a.sign ∧ !b.sign) ∨ (b.sign ∧ !a.sign) }

/-- One bit step of the restoring division `big_integer_division_int9_t`:
shift the remainder, bring down bit `k` of `v`, and subtract the divisor when
the remainder admits it (setting quotient bit `k`). -/
def division_step (simd : Bool) (v : big_integer) (div : Nat) (k : Nat)
    (st : big_integer × big_integer × big_integer) :
    big_integer × big_integer × big_integer :=
  let quotient := st.1
  let remainder := st.2.1
  let divisor_big := st.2.2
  let r1 := big_integer_shl_bitwise_0_to_7 remainder 1 simd
  let bit_i := get_byte_value_of_big_integer v (k / 8) >>> (k % 8) % 2
  let r2 := set_byte_value_of_big_integer r1 0
    (get_byte_value_of_big_integer r1 0 ||| bit_i)
  if big_integer_greater_equal_int16 r2 (div : Int) simd then
    let p := big_integer_subtraction r2 divisor_big simd
    (set_bit_value_of_big_integer quotient k true, p.1, p.2)
  else (quotient, r2, divisor_big)

/-- Bit loop of `big_integer_division_int9_t`: processes bits `n - 1` down to
`0` of `v` (in C, `i` runs over bytes from the top and `j` over bits from 7,
which enumerates exactly these indices in this order). -/
def division_loop (simd : Bool) (v : big_integer) (div : Nat) :
    Nat → big_integer × big_integer × big_integer →
      big_integer × big_integer × big_integer
  | 0, st => st
  | k + 1, st => division_loop simd v div k (division_step simd v div k st)

/-- C function `big_integer_division_int9_t`.  Returns `none` on the
division-by-zero abort; otherwise the updated `value`, the signed 16-bit
remainder, and the two temp big_integers (quotient and remainder buffers).
The `uint8_t div = abs(divisor)` truncation is modelled by `% 256`. -/
def big_integer_division_int9_t (value : big_integer) (divisor : Int)
    (temp_value temp_value2 : big_integer) (simd : Bool) :
    Option (big_integer × Int × big_integer × big_integer) :=
  if divisor = 0 then none
  else
    let div : Nat := divisor.natAbs % 256
    let value_sign := value.sign
    let v0 := { value with sign := false }
    let quotient := set_zero temp_value
    let remainder := set_zero temp_value2
    let divisor_big :=
      set_byte_value_of_big_integer (create_big_integer 2 false) 0
        (divisor.natAbs % 256)
    let st := division_loop simd v0 div (8 * v0.length)
      (quotient, remainder, divisor_big)
    let value1 := copy_big_integer_value_into_another st.1 v0
    let remainder16 : Int := get_byte_value_of_big_integer st.2.1 0
    let value2 :=
      if (value_sign ∧ divisor > 0) ∨ (!value_sign ∧ divisor < 0) then
        { value1 with sign := true }
      else value1
    let remainder16' := if value_sign then -remainder16 else remainder16
    some (value2, remainder16', st.1, st.2.1)

/-!
## Sizing helpers (arithmetic_helper.c, big_integer.c)
-/

/-- C function `binary_logarithm_8bit_abs_ceil`: smallest `i + 1` with
`abs value > 2 ^ i` scanning `i = 7, …, 0`; `-1` when `abs value ≤ 1`. -/
def binary_logarithm_8bit_abs_ceil (value : Int) : Int :=
  if value.natAbs > 128 then 8
  else if value.natAbs > 64 then 7
  else if value.natAbs > 32 then 6
  else if value.natAbs > 16 then 5
  else if value.natAbs > 8 then 4
  else if value.natAbs > 4 then 3
  else if value.natAbs > 2 then 2
  else if value.natAbs > 1 then 1
  else -1

/-- C function `get_big_integer_min_size_exponentiation`:
`(log2ceil(base) * exponent) / 8 + 1` bytes. -/
def get_big_integer_min_size_exponentiation (base : Int) (exponent : Nat) : Nat :=
  ((binary_logarithm_8bit_abs_ceil base * exponent) / 8 + 1).toNat

/-- C function `get_big_integer_min_size` (delegates to the exponentiation
sizing). -/
def get_big_integer_min_size (base : Int) (length : Nat) : Nat :=
  get_big_integer_min_size_exponentiation base length

/-!
## RadixCodec (binary_conversion.c, common.c)

Characters are modelled as their byte codes (`List Nat`); a C string is the
list of its characters before the terminating NUL.
-/

/-- Code of the `'-'` character. -/
def minusChar : Nat := 45

/-- C function `generate_lut` followed by `get_char_value`: the table maps a
character to the index of its last occurrence among the first `alph_len`
characters of the alphabet (later loop iterations overwrite earlier ones) and
every other character to 0 (the table is zero-initialized in the binary
conversion core). -/
def generate_lut (alph_len : Nat) (alph : List Nat) (c : Nat) : Nat :=
  let alph' := alph.take alph_len
  if c ∈ alph' then alph'.length - 1 - alph'.reverse.indexOf c else 0

/-- State threaded through the parse loop of
`convert_numbers_from_any_base_into_binary`. -/
structure parse_state where
  z1_binary : big_integer
  z2_binary : big_integer
  z1_temp : big_integer
  z2_temp : big_integer
  current_weight : big_integer
  temp : big_integer
  temp2 : big_integer

/-- Position loop of `convert_numbers_from_any_base_into_binary`: add
`digit · weight` for each string position, then multiply the weight by the
base (the buffer swap of `current_weight` and `temp` is the state update). -/
def parse_loop (simd : Bool) (base : Int) (lut : Nat → Nat) (z1 z2 : List Nat) :
    List Nat → parse_state → parse_state
  | [], st => st
  | i :: rest, st =>
    let st1 :=
      if i < z1.length then
        let char_index := z1.length - 1 - i
        let digit_value := lut (z1.getD char_index 0)
        let q := big_integer_multiply_uint8 st.current_weight digit_value
          st.z1_temp st.temp2 simd
        let p := big_integer_addition st.z1_binary q.1 simd
        { st with z1_binary := p.1, z1_temp := p.2, temp2 := q.2 }
      else st
    let st2 :=
      if i < z2.length then
        let q := big_integer_multiply_uint8 st1.current_weight
          (lut (z2.getD (z2.length - 1 - i) 0)) st1.z2_temp st1.temp2 simd
        let p := big_integer_addition st1.z2_binary q.1 simd
        { st1 with z2_binary := p.1, z2_temp := p.2, temp2 := q.2 }
      else st1
    let q := big_integer_multiply_int_neg256_to_256 st2.current_weight base
      st2.temp st2.temp2 simd
    parse_loop simd base lut z1 z2 rest
      { st2 with current_weight := q.1, temp := st2.current_weight, temp2 := q.2 }

/-- C function `convert_numbers_from_any_base_into_binary`: Horner-style
accumulation of `digit × base^i` into the two destination big_integers. -/
def convert_numbers_from_any_base_into_binary (base : Int) (alph z1 z2 : List Nat)
    (z1_binary z2_binary : big_integer) (simd : Bool) :
    big_integer × big_integer :=
  let lut := generate_lut alph.length alph
  let z1_temp := create_big_integer z1_binary.length false
  let z2_temp := create_big_integer z2_binary.length false
  let max_length := max z1.length z2.length
  let current_weight := create_big_integer
    (get_big_integer_min_size_exponentiation base max_length) false
  let temp := create_big_integer current_weight.length false
  let temp2 := create_big_integer current_weight.length false
  let current_weight1 := set_byte_value_of_big_integer current_weight 0 1
  let st := parse_loop simd base lut z1 z2 (List.range max_length)
    { z1_binary := z1_binary, z2_binary := z2_binary, z1_temp := z1_temp,
      z2_temp := z2_temp, current_weight := current_weight1, temp := temp,
      temp2 := temp2 }
  (st.z1_binary, st.z2_binary)

/-- Adjustment pass of the generalized Double-Dabble: for each byte from index
`j` upward, a byte that reached the trigger gets `carry_add` added (wrapping
mod 256) and carries 1 into the next byte.  The carry write at index `length`
falls outside the buffer (dropped here, heap overflow in C — prevented by the
caller's sizing). -/
def dabble_adjust_go (trigger carry_add : Nat) :
    Nat → List Nat → Nat → List Nat
  | 0, cb, _ => cb
  | fuel + 1, cb, j =>
    if j < cb.length then
      let byte := cb.getD j 0
      if byte ≥ trigger then
        let cb1 := cb.set j ((byte + carry_add) % 256)
        let cb2 := cb1.set (j + 1) ((cb1.getD (j + 1) 0 + 1) % 256)
        dabble_adjust_go trigger carry_add fuel cb2 (j + 1)
      else dabble_adjust_go trigger carry_add fuel cb (j + 1)
    else cb

/-- The full adjustment pass over the digit buffer (fuel `cb.length` covers
the loop exactly). -/
def dabble_adjust (trigger carry_add : Nat) (cb : List Nat) : List Nat :=
  dabble_adjust_go trigger carry_add cb.length cb 0

/-- One bit iteration of the positive-base projection: shift the digit buffer,
bring down the most significant bit of the remaining value, shift the
remaining value, then run the adjustment pass. -/
def dabble_step (simd : Bool) (trigger carry_add : Nat)
    (st : big_integer × big_integer) : big_integer × big_integer :=
  let calc_buffer := st.1
  let remaining_value := st.2
  let calc1 := big_integer_shl_bitwise_0_to_7 calc_buffer 1 simd
  let msb := get_most_significant_bit remaining_value
  let calc2 := set_byte_value_of_big_integer calc1 0
    (get_byte_value_of_big_integer calc1 0 ||| (if msb then 1 else 0))
  let remaining' := big_integer_shl_bitwise_0_to_7 remaining_value 1 simd
  let calc3 := { calc2 with mem := dabble_adjust trigger carry_add calc2.mem }
  (calc3, remaining')

/-- Iterate `dabble_step` for the given number of bit positions. -/
def dabble_iter (simd : Bool) (trigger carry_add : Nat) :
    Nat → big_integer × big_integer → big_integer × big_integer
  | 0, st => st
  | n + 1, st => dabble_iter simd trigger carry_add n
      (dabble_step simd trigger carry_add st)

/-- Highest nonzero byte index of the digit buffer (0 if all bytes are 0),
scanning from the top as the C loop does. -/
def calc_buffer_start_nonzero (cb : List Nat) : Nat → Nat
  | 0 => 0
  | i + 1 => if cb.getD i 0 ≠ 0 then i else calc_buffer_start_nonzero cb i

/-- Division loop of the negative-base projection, with explicit fuel (the C
loop runs until the value is zero; in-contract runs terminate well within the
fuel the caller provides).  Returns the digits least-significant first. -/
def negative_base_digits (simd : Bool) (base : Int) (base_abs : Nat)
    (alph : List Nat) : Nat → big_integer → big_integer → big_integer →
      Option (List Nat)
  | 0, value, _, _ =>
    if big_integer_is_zero value simd then some [] else none
  | fuel + 1, value, temp, temp2 =>
    if big_integer_is_zero value simd then some []
    else
      match big_integer_division_int9_t value base temp temp2 simd with
      | none => none
      | some (value1, r, temp', temp2') =>
        let r1 := if r < 0 then r + base_abs else r
        let value2 := if r < 0 then big_integer_increment value1 else value1
        if r1 < 0 ∨ r1 ≥ (alph.length : Int) then none
        else
          match negative_base_digits simd base base_abs alph fuel value2 temp' temp2' with
          | none => none
          | some ds => some (alph.getD r1.toNat 0 :: ds)

/-- C function `convert_big_integer_to_any_base`.  Returns the NUL-terminated
string contents written to the buffer, `none` on any abort path (`exit(5)`
when the terminator does not fit, `abort_err` on a bad remainder or an
out-of-range reversal index). -/
def convert_big_integer_to_any_base (value : big_integer) (base : Int)
    (alph : List Nat) (buffer_length : Nat) (simd : Bool) : Option (List Nat) :=
  if base > 0 then
    let conversion_trigger := base.toNat % 256
    let carry_add := (256 - base.toNat) % 256
    let calc_buffer := create_big_integer buffer_length false
    let remaining_value := clone_big_integer value
    let st := dabble_iter simd conversion_trigger carry_add (value.length * 8)
      (calc_buffer, remaining_value)
    let start_nonzero := calc_buffer_start_nonzero st.1.mem st.1.length
    let start_index := if value.sign then 1 else 0
    let digit_count := start_nonzero + 1
    -- a digit write at an index ≥ buffer_length breaks out of the loop, after
    -- which the NUL write check fails and the process exits
    if start_index + digit_count ≥ buffer_length then none
    else
      let digits := (List.range digit_count).map fun k =>
        alph.getD (st.1.mem.getD (start_nonzero - k) 0) 0
      some ((if value.sign then [minusChar] else []) ++ digits)
  else
    let base_abs : Nat := base.natAbs
    if big_integer_is_zero value simd then some [alph.getD 0 0]
    else
      let temp := create_big_integer value.length false
      let temp2 := create_big_integer value.length false
      match negative_base_digits simd base base_abs alph (8 * value.length + 8)
        value temp temp2 with
      | none => none
      | some ds =>
        -- in-place reversal; its bounds check aborts when the top index
        -- reaches the buffer length
        if 2 ≤ ds.length ∧ buffer_length ≤ ds.length - 1 then none
        else some ds.reverse

/-- C function `arith_op_any_base__binary_conversion` (the `compute` entry
point of the binary-conversion core); `none` models the `abort_err` on an
invalid operation and the projection abort paths. -/
def arith_op_any_base__binary_conversion (base : Int) (alph z1 z2 : List Nat)
    (op : Nat) (simd : Bool) : Option (List Nat) :=
  let z1_negative := base > 1 ∧ z1.getD 0 0 = minusChar
  let z2_negative := base > 1 ∧ z2.getD 0 0 = minusChar
  let z1_binary_minsize := get_big_integer_min_size base z1.length
  let z2_binary_minsize := get_big_integer_min_size base z2.length
  let z2_binary := create_big_integer z2_binary_minsize false
  let addition_subtraction_min_result_size :=
    max z1_binary_minsize z2_binary_minsize + 1
  let z1_binary :=
    if op = 43 ∨ op = 45 then
      create_big_integer addition_subtraction_min_result_size false
    else create_big_integer z1_binary_minsize false
  let p := convert_numbers_from_any_base_into_binary base alph z1 z2
    z1_binary z2_binary simd
  let z1b := if z1_negative then { p.1 with sign := true } else p.1
  let z2b := if z2_negative then { p.2 with sign := true } else p.2
  let step :
      Option (big_integer × Nat) :=
    if op = 43 then
      -- '+'
      let result_length := max z1.length z2.length + 2 + (if base < 0 then 1 else 0)
      some ((big_integer_addition z1b z2b simd).1, result_length)
    else if op = 45 then
      -- '-'
      some ((big_integer_subtraction z1b z2b simd).1, max z1.length z2.length + 3)
    else if op = 42 then
      -- '*'
      let res := create_big_integer (z1b.length + z2b.length) false
      some (big_integer_multiplication z1b z2b res simd,
        max z1.length z2.length * 2 + 1)
    else none
  match step with
  | none => none
  | some (res, result_length) =>
    let res' := if big_integer_is_zero res simd then { res with sign := false }
      else res
    convert_big_integer_to_any_base res' base alph result_length simd

/-!
## The digit-wise naive core (impl_naive.c)

Digit strings are again lists of character codes.  The C loops walk the
operands from their least significant digit with pointers; we walk the
reversed lists.  The while-loops run until the carry dies out, which we model
with explicit fuel (`none` = fuel exhausted; any in-contract execution
terminates well within the fuel chosen at the call sites).
-/

/-- Digit loop of `add_sub_unsigned`: producing the digits least-significant
first over the reversed operands, until both operands and the carry are
exhausted. -/
def add_sub_unsigned_loop (add : Bool) (base : Int) (base_abs : Nat)
    (alph : List Nat) (lut : Nat → Nat) :
    Nat → List Nat → List Nat → Int → Option (List Nat)
  | 0, _, _, _ => none
  | fuel + 1, ra, rb, carry =>
    if ra = [] ∧ rb = [] ∧ carry = 0 then some []
    else
      let a := ra.headD (alph.getD 0 0)
      let b := rb.headD (alph.getD 0 0)
      let a_idx : Int := lut a
      let b_idx : Int := lut b
      let sum_idx := (if add then a_idx + b_idx else a_idx - b_idx) + carry
      let carry_offset : Int := if base < 0 then -1 else 1
      let step : Nat × Int :=
        if sum_idx ≥ (base_abs : Int) then
          (alph.getD (sum_idx - base_abs).toNat 0, carry_offset)
        else if sum_idx < 0 then
          (alph.getD (sum_idx + base_abs).toNat 0, -carry_offset)
        else (alph.getD sum_idx.toNat 0, 0)
      match add_sub_unsigned_loop add base base_abs alph lut fuel ra.tail rb.tail
        step.2 with
      | none => none
      | some ds => some (step.1 :: ds)

/-- C function `add_sub_unsigned`: digit loop, zero stripping, optional `'-'`
prefix (skipped when the result is the single zero digit), reversal. -/
def add_sub_unsigned (add negate : Bool) (base : Int) (alph z1 z2 : List Nat) :
    Option (List Nat) :=
  let base_abs : Nat := base.natAbs
  let lut := generate_lut base_abs alph
  let fuel := max z1.length z2.length + 4
  match add_sub_unsigned_loop add base base_abs alph lut fuel z1.reverse
    z2.reverse 0 with
  | none => none
  | some ds =>
    -- ds is least-significant first; stripping leading zeros of the number
    -- removes trailing list elements, keeping at least one
    let stripped := List.reverse ((ds.reverse).dropWhile (· = alph.getD 0 0))
    let stripped := if stripped = [] then ds.take 1 else stripped
    let withSign :=
      if negate ∧ stripped.getLast? ≠ some (alph.getD 0 0) then
        stripped ++ [minusChar]
      else stripped
    some withSign.reverse

/-- C function `cmp_unsigned_pos_base`: shorter is smaller, then the leftmost
differing digit (by lookup value) decides. -/
def cmp_unsigned_pos_base (base : Nat) (alph z1 z2 : List Nat) : Int :=
  if z1.length < z2.length then -1
  else if z1.length > z2.length then 1
  else
    let lut := generate_lut base alph
    let rec go : List Nat → List Nat → Int
      | a :: as, b :: bs =>
        if lut a < lut b then -1
        else if lut a > lut b then 1
        else go as bs
      | _, _ => 0
    go z1 z2

/-- C function `sub_unsigned_to_signed`: subtract the smaller from the larger,
negating when the operands were swapped. -/
def sub_unsigned_to_signed (base : Int) (alph z1 z2 : List Nat) :
    Option (List Nat) :=
  if cmp_unsigned_pos_base base.natAbs alph z1 z2 < 0 then
    add_sub_unsigned false true base alph z2 z1
  else
    add_sub_unsigned false false base alph z1 z2

/-- Digit loop of `mul_unsigned_and_shift_left`.  The C carry-normalization
loops repeatedly add or subtract `abs(base)`; their net effect is the
Euclidean remainder as digit and `carry_offset` times the Euclidean quotient
as new carry. -/
def mul_shift_loop (base : Int) (base_abs : Nat) (alph : List Nat)
    (b_idx : Int) (lut : Nat → Nat) :
    Nat → List Nat → Int → Option (List Nat)
  | 0, _, _ => none
  | fuel + 1, ra, carry =>
    if ra = [] ∧ carry = 0 then some []
    else
      let a := ra.headD (alph.getD 0 0)
      let a_idx : Int := lut a
      let prod_idx := a_idx * b_idx + carry
      let carry_offset : Int := if base < 0 then -1 else 1
      let digit := prod_idx.emod base_abs
      let carry' := carry_offset * prod_idx.ediv base_abs
      match mul_shift_loop base base_abs alph b_idx lut fuel ra.tail carry' with
      | none => none
      | some ds => some (alph.getD digit.toNat 0 :: ds)

/-- C function `mul_unsigned_and_shift_left`: multiply by one digit, strip
leading zeros, reverse, then append `shift` zero digits. -/
def mul_unsigned_and_shift_left (shift : Nat) (base : Int) (alph z1 : List Nat)
    (z2 : Nat) : Option (List Nat) :=
  let base_abs : Nat := base.natAbs
  let lut := generate_lut base_abs alph
  let b_idx : Int := lut z2
  match mul_shift_loop base base_abs alph b_idx lut (z1.length + 40) z1.reverse
    0 with
  | none => none
  | some ds =>
    let stripped := List.reverse ((ds.reverse).dropWhile (· = alph.getD 0 0))
    let stripped := if stripped = [] then ds.take 1 else stripped
    some (stripped.reverse ++ List.replicate shift (alph.getD 0 0))

/-- Partial-product loop of `mul_unsigned` over the shift indices
`0 … max_shift - 1`. -/
def mul_unsigned_go (base : Int) (alph a b : List Nat) :
    List Nat → List Nat → Option (List Nat × List Nat)
  | [], acc => some (acc, [])
  | i :: rest, acc =>
    match mul_unsigned_and_shift_left i base alph a (b.getD (b.length - 1 - i) 0) with
    | none => none
    | some pp =>
      match add_sub_unsigned true false base alph acc pp with
      | none => none
      | some acc' => mul_unsigned_go base alph a b rest acc'

/-- C function `mul_unsigned`: long multiplication, accumulating partial
products with `add_sub_unsigned`; the smaller factor is used as the
multiplier.  The final partial product (at shift `max_shift`) is added with
the `negate` flag. -/
def mul_unsigned (negate : Bool) (base : Int) (alph z1 z2 : List Nat) :
    Option (List Nat) :=
  let p : List Nat × Nat × List Nat :=
    if z2.length ≤ z1.length then (z1, z2.length - 1, z2)
    else (z2, z1.length - 1, z1)
  let a := p.1
  let max_shift := p.2.1
  let b := p.2.2
  match mul_unsigned_go base alph a b (List.range max_shift) [alph.getD 0 0] with
  | none => none
  | some (acc, _) =>
    match mul_unsigned_and_shift_left max_shift base alph a
      (b.getD (b.length - 1 - max_shift) 0) with
    | none => none
    | some pp => add_sub_unsigned true negate base alph acc pp

/-- C function `strip_zeroes`: drop leading zero digits but keep the last
character. -/
def strip_zeroes (zero : Nat) : List Nat → List Nat
  | [] => []
  | c :: rest => if c = zero ∧ rest ≠ [] then strip_zeroes zero rest else c :: rest

/-- C function `impl_naive`: sign/zero preprocessing and dispatch into the
unsigned digit-wise routines. -/
def impl_naive (base : Int) (alph z1 z2 : List Nat) (op : Nat) :
    Option (List Nat) :=
  if base < 0 then
    let z1 := strip_zeroes (alph.getD 0 0) z1
    let z2 := strip_zeroes (alph.getD 0 0) z2
    if op = 43 then add_sub_unsigned true false base alph z1 z2
    else if op = 45 then add_sub_unsigned false false base alph z1 z2
    else if op = 42 then mul_unsigned false base alph z1 z2
    else none
  else
    let z1_pos := z1.getD 0 0 ≠ minusChar
    let z2_pos := z2.getD 0 0 ≠ minusChar
    let z1 := if z1_pos then z1 else z1.tail
    let z2 := if z2_pos then z2 else z2.tail
    let z1 := strip_zeroes (alph.getD 0 0) z1
    let z2 := strip_zeroes (alph.getD 0 0) z2
    if op = 43 then
      if z1_pos ∧ z2_pos then add_sub_unsigned true false base alph z1 z2
      else if z1_pos then sub_unsigned_to_signed base alph z1 z2
      else if z2_pos then sub_unsigned_to_signed base alph z2 z1
      else add_sub_unsigned true true base alph z1 z2
    else if op = 45 then
      if z1_pos ∧ z2_pos then sub_unsigned_to_signed base alph z1 z2
      else if z1_pos then add_sub_unsigned true false base alph z1 z2
      else if z2_pos then add_sub_unsigned true true base alph z1 z2
      else sub_unsigned_to_signed base alph z2 z1
    else if op = 42 then
      if z1_pos ≠ z2_pos then mul_unsigned true base alph z1 z2
      else mul_unsigned false base alph z1 z2
    else none

/-!
# Theorems

## Byte-list basics
-/

@[simp] theorem valLE_nil : valLE [] = 0 := rfl

@[simp] theorem valLE_cons (x : Nat) (xs : List Nat) :
    valLE (x :: xs) = x + 256 * valLE xs := rfl

@[simp] theorem natLEBytes_zero (n : Nat) : natLEBytes 0 n = [] := rfl

@[simp] theorem natLEBytes_succ (k n : Nat) :
    natLEBytes (k + 1) n = n % 256 :: natLEBytes k (n / 256) := rfl

@[simp] theorem natLEBytes_length (k n : Nat) : (natLEBytes k n).length = k := by
  induction k generalizing n with
  | zero => rfl
  | succ k ih => simp [natLEBytes, ih]

theorem natLEBytes_wf (k n : Nat) : WfBytes (natLEBytes k n) := by
  induction k generalizing n with
  | zero => intro x hx; simp [natLEBytes] at hx
  | succ k ih =>
    intro x hx
    simp only [natLEBytes, List.mem_cons] at hx
    rcases hx with h | h
    · omega
    · exact ih _ x h

theorem valLE_natLEBytes (k n : Nat) : valLE (natLEBytes k n) = n % 256 ^ k := by
  induction k generalizing n with
  | zero => simp [natLEBytes, Nat.mod_one]
  | succ k ih =>
    simp only [natLEBytes, valLE_cons, ih]
    rw [pow_succ, mul_comm (256 ^ k) 256, Nat.mod_mul]

theorem valLE_append (xs ys : List Nat) :
    valLE (xs ++ ys) = valLE xs + 256 ^ xs.length * valLE ys := by
  induction xs with
  | nil => simp
  | cons x xs ih =>
    simp only [List.cons_append, valLE_cons, ih, List.length_cons]
    ring

theorem valLE_lt (l : List Nat) (h : WfBytes l) : valLE l < 256 ^ l.length := by
  induction l with
  | nil => simp
  | cons x xs ih =>
    have hx : x < 256 := h x (by simp)
    have hxs : valLE xs < 256 ^ xs.length := ih (fun y hy => h y (by simp [hy]))
    simp only [valLE_cons, List.length_cons, pow_succ]
    calc x + 256 * valLE xs < 256 + 256 * valLE xs := by omega
    _ ≤ 256 * (valLE xs + 1) := by ring_nf; omega
    _ ≤ 256 ^ xs.length * 256 := by
        have : valLE xs + 1 ≤ 256 ^ xs.length := hxs
        calc 256 * (valLE xs + 1) ≤ 256 * 256 ^ xs.length := by
              exact Nat.mul_le_mul_left 256 this
        _ = 256 ^ xs.length * 256 := by ring

theorem natLEBytes_mod (k n : Nat) :
    natLEBytes k (n % 256 ^ k) = natLEBytes k n := by
  induction k generalizing n with
  | zero => rfl
  | succ k ih =>
    have hpow : (256:Nat) ^ (k + 1) = 256 * 256 ^ k := by rw [pow_succ]; ring
    have h1 : n % 256 ^ (k + 1) % 256 = n % 256 := by
      rw [hpow]
      exact Nat.mod_mod_of_dvd n ⟨256 ^ k, rfl⟩
    have h2 : n % 256 ^ (k + 1) / 256 = n / 256 % 256 ^ k := by
      rw [hpow]
      exact Nat.mod_mul_right_div_self n 256 (256 ^ k)
    simp only [natLEBytes, h1, h2, ih]

theorem valLE_eq_zero_iff (l : List Nat) : valLE l = 0 ↔ ∀ x ∈ l, x = 0 := by
  induction l with
  | nil => simp
  | cons x xs ih =>
    simp only [valLE_cons, List.mem_cons]
    constructor
    · intro h
      have hx : x = 0 := by omega
      have hxs : valLE xs = 0 := by omega
      intro y hy
      rcases hy with rfl | hy
      · exact hx
      · exact (ih.mp hxs) y hy
    · intro h
      have hx : x = 0 := h x (Or.inl rfl)
      have : valLE xs = 0 := ih.mpr fun y hy => h y (Or.inr hy)
      omega

/-!
## Zero-test equivalence (big_integer.c)
-/

theorem is_zero_simd_go_eq (fuel : Nat) (l : List Nat) :
    big_integer_is_zero_simd_go fuel l = l.all (· = 0) := by
  induction fuel generalizing l with
  | zero => rfl
  | succ fuel ih =>
    simp only [big_integer_is_zero_simd_go]
    by_cases h15 : 15 ≤ l.length
    · simp only [if_pos h15]
      by_cases hz : valLE (l.take 15) = 0
      · simp only [hz, ne_eq, not_true_eq_false, if_neg, ite_false, ih]
        conv_rhs => rw [← List.take_append_drop 15 l, List.all_append]
        have : (l.take 15).all (· = 0) = true := by
          simp only [List.all_eq_true, decide_eq_true_eq]
          exact (valLE_eq_zero_iff _).mp hz
        simp [this]
      · have hall : l.all (· = 0) = false := by
          rw [List.all_eq_false]
          have := (valLE_eq_zero_iff (l.take 15)).not.mp hz
          push_neg at this
          obtain ⟨x, hx, hx0⟩ := this
          exact ⟨x, List.mem_of_mem_take hx, by simpa using hx0⟩
        simp [hz, hall]
    · simp only [if_neg h15]
      by_cases h7 : 7 ≤ l.length
      · simp only [if_pos h7]
        by_cases hz : valLE (l.take 7) = 0
        · simp only [hz, ne_eq, not_true_eq_false, if_neg, ite_false, ih]
          conv_rhs => rw [← List.take_append_drop 7 l, List.all_append]
          have : (l.take 7).all (· = 0) = true := by
            simp only [List.all_eq_true, decide_eq_true_eq]
            exact (valLE_eq_zero_iff _).mp hz
          simp [this]
        · have hall : l.all (· = 0) = false := by
            rw [List.all_eq_false]
            have := (valLE_eq_zero_iff (l.take 7)).not.mp hz
            push_neg at this
            obtain ⟨x, hx, hx0⟩ := this
            exact ⟨x, List.mem_of_mem_take hx, by simpa using hx0⟩
          simp [hz, hall]
      · simp [h7]

/-- The SIMD and sequential zero tests agree on every big_integer. -/
theorem is_zero_simd_eq_sisd (a : big_integer) :
    big_integer_is_zero_simd a = big_integer_is_zero_sisd a :=
  is_zero_simd_go_eq a.mem.length a.mem

/-- The simd flag never changes the result of `big_integer_is_zero`. -/
theorem is_zero_flag (a : big_integer) (simd : Bool) :
    big_integer_is_zero a simd = big_integer_is_zero_sisd a := by
  cases simd <;> simp [big_integer_is_zero, is_zero_simd_eq_sisd]

theorem getD_zero_of_all_zero (l : List Nat) (h : ∀ x ∈ l, x = 0) (i : Nat) :
    l.getD i 0 = 0 := by
  by_cases hi : i < l.length
  · rw [List.getD_eq_getElem l 0 hi]
    exact h _ (l.getElem_mem hi)
  · exact List.getD_eq_default l 0 (by omega)

/-!
## Claim C9: the literal negative-base multiplication scenario
-/

set_option maxRecDepth 400000 in
/-- C9: for the literal input base = -2, alphabet "01", z1 = "11", z2 = "11",
op = '*', the binary-conversion compute writes the result string "1"
(character codes: alphabet [48, 49], operands [49, 49], output [49]), for
both SIMD settings. -/
theorem claim_C9 :
    ∀ simd : Bool,
      arith_op_any_base__binary_conversion (-2) [48, 49] [49, 49] [49, 49] 42 simd =
        some [49] := by
  decide

/-!
## Claim C7: increment of negative multi-byte magnitudes
-/

/-- C7 (failing input): incrementing the big_integer −258 (sign set, bytes
[2, 1]) yields bytes [1, 0], i.e. −1: the code decremented *both* nonzero
bytes instead of subtracting 1 from the magnitude (which would give −257,
bytes [1, 1]). -/
theorem claim_C7_failing_input :
    big_integer_increment ⟨true, [2, 1]⟩ = ⟨true, [1, 0]⟩ ∧
    big_integer.val ⟨true, [2, 1]⟩ = -258 ∧
    big_integer.val (big_integer_increment ⟨true, [2, 1]⟩) = -1 := by
  decide

/-!
## Claim C5: equality of big_integers and signed zeros
-/

/-- C5 counterexample: `big_integer_is_equal` applied to +0 and −0 (both
magnitudes zero, sign flags different) returns false, contradicting the
claim that equality holds regardless of the signs when both magnitudes are
zero. -/
theorem claim_C5_counterexample :
    big_integer_is_equal ⟨false, [0]⟩ ⟨true, [0]⟩ = false ∧
    valLE (big_integer.mem ⟨false, [0]⟩) = 0 ∧
    valLE (big_integer.mem ⟨true, [0]⟩) = 0 := by
  decide

/-- C5 amended: `equals` returns true iff the signs are identical and the
magnitudes are byte-wise equal (missing high-order bytes reading as zero);
the sign check comes first, so two zeros with different sign flags are *not*
equal. -/
theorem claim_C5_amended (a b : big_integer) :
    big_integer_is_equal a b = true ↔
      a.sign = b.sign ∧ ∀ i, a.mem.getD i 0 = b.mem.getD i 0 := by
  unfold big_integer_is_equal
  by_cases hs : a.sign = b.sign
  · rw [if_neg (by simp [hs])]
    by_cases hz : big_integer_is_zero_simd a ∧ big_integer_is_zero_simd b
    · rw [if_pos hz]
      have ha := hz.1
      have hb := hz.2
      rw [is_zero_simd_eq_sisd] at ha hb
      simp only [big_integer_is_zero_sisd, List.all_eq_true, decide_eq_true_eq] at ha hb
      constructor
      · intro _
        refine ⟨hs, fun i => ?_⟩
        rw [getD_zero_of_all_zero a.mem ha i, getD_zero_of_all_zero b.mem hb i]
      · intro _
        rfl
    · rw [if_neg hz]
      simp only [List.all_eq_true, List.mem_range, decide_eq_true_eq]
      constructor
      · intro h
        refine ⟨hs, fun i => ?_⟩
        by_cases hi : i < max a.mem.length b.mem.length
        · exact h i hi
        · rw [List.getD_eq_default _ _ (by omega), List.getD_eq_default _ _ (by omega)]
      · intro h i _
        exact h.2 i
  · rw [if_pos (by simp [hs])]
    constructor
    · intro h
      exact absurd h (by simp)
    · intro h
      exact absurd h.1 hs

/-!
## Length preservation of the magnitude loops
-/

theorem addition_sisd_loop_length (a b : List Nat) (c : Nat) :
    (addition_sisd_loop a b c).1.length = a.length := by
  induction a generalizing b c with
  | nil => rfl
  | cons x xs ih =>
    cases b with
    | nil => simp [addition_sisd_loop, ih]
    | cons y ys => simp [addition_sisd_loop, ih]

theorem subtraction_sisd_loop_length (a b : List Nat) (c : Nat) :
    (subtraction_sisd_loop a b c).1.length = a.length := by
  induction a generalizing b c with
  | nil => rfl
  | cons x xs ih =>
    cases b with
    | nil => simp [subtraction_sisd_loop, ih]
    | cons y ys => simp [subtraction_sisd_loop, ih]

theorem addition_simd_chunk_length (a b : List Nat) (c : Nat) :
    (addition_simd_chunk a b c).1.length = 15 := by
  simp [addition_simd_chunk]

theorem subtraction_simd_chunk_length (a b : List Nat) (c : Nat) :
    (subtraction_simd_chunk a b c).1.length = 15 := by
  simp [subtraction_simd_chunk]

theorem addition_simd_go_length (fuel : Nat) (a b : List Nat) (c : Nat) :
    (addition_simd_go fuel a b c).1.length = a.length := by
  induction fuel generalizing a b c with
  | zero => exact addition_sisd_loop_length a b c
  | succ fuel ih =>
    simp only [addition_simd_go]
    by_cases h15 : 15 ≤ a.length ∧ 15 ≤ b.length
    · simp only [if_pos h15, List.length_append, addition_simd_chunk_length, ih,
        List.length_drop]
      omega
    · rw [if_neg h15]
      by_cases h7 : 7 ≤ a.length ∧ 7 ≤ b.length
      · simp only [if_pos h7, List.length_append, natLEBytes_length, ih,
          List.length_drop]
        omega
      · rw [if_neg h7]
        exact addition_sisd_loop_length a b c

theorem subtraction_simd_go_length (fuel : Nat) (a b : List Nat) (c : Nat) :
    (subtraction_simd_go fuel a b c).1.length = a.length := by
  induction fuel generalizing a b c with
  | zero => exact subtraction_sisd_loop_length a b c
  | succ fuel ih =>
    simp only [subtraction_simd_go]
    by_cases h15 : 15 ≤ a.length ∧ 15 ≤ b.length
    · simp only [if_pos h15, List.length_append, subtraction_simd_chunk_length, ih,
        List.length_drop]
      omega
    · rw [if_neg h15]
      by_cases h7 : 7 ≤ a.length ∧ 7 ≤ b.length
      · simp only [if_pos h7, List.length_append, natLEBytes_length, ih,
          List.length_drop]
        omega
      · rw [if_neg h7]
        exact subtraction_sisd_loop_length a b c

/-!
## Claim C10: the second operand is restored by add and sub
-/

theorem copy_into_self (s d : big_integer) (h : s.mem.length = d.mem.length) :
    copy_big_integer_value_into_another s d = s := by
  unfold copy_big_integer_value_into_another
  have h1 : min s.mem.length d.mem.length = s.mem.length := by omega
  have h2 : d.mem.length - s.mem.length = 0 := by omega
  rw [h1, h2, List.take_length, List.replicate_zero, List.append_nil]

theorem subtraction_positive_case_snd (a b : big_integer) (simd : Bool) :
    (subtraction_positive_case a b simd).2 = b := by
  unfold subtraction_positive_case
  by_cases hgt : positive_big_integer_is_greater_than b a simd
  · simp only [hgt, if_true]
    apply copy_into_self
    cases simd with
    | false =>
      simp [clone_big_integer, negate_big_integer, big_integer_subtraction_sisd,
        subtraction_sisd_loop_length]
    | true =>
      simp [clone_big_integer, negate_big_integer, big_integer_subtraction_simd,
        subtraction_simd_go_length]
  · simp [hgt]

theorem big_integer_addition_snd (a b : big_integer) (simd : Bool) :
    (big_integer_addition a b simd).2 = b := by
  unfold big_integer_addition
  by_cases h1 : a.sign ∧ !b.sign
  · simp only [if_pos h1]
    exact subtraction_positive_case_snd _ _ _
  · rw [if_neg h1]
    by_cases h2 : !a.sign ∧ b.sign
    · simp only [if_pos h2]
      rw [subtraction_positive_case_snd]
      have hb : b.sign = true := h2.2
      cases b
      simp_all
    · rw [if_neg (by simpa using h2)]

theorem big_integer_subtraction_snd (a b : big_integer) (simd : Bool) :
    (big_integer_subtraction a b simd).2 = b := by
  unfold big_integer_subtraction
  by_cases h1 : !a.sign ∧ b.sign
  · simp only [if_pos h1]
    rw [big_integer_addition_snd]
    have hb : b.sign = true := h1.2
    cases b
    simp_all
  · rw [if_neg h1]
    by_cases h2 : a.sign ∧ !b.sign
    · simp only [if_pos h2]
      rw [big_integer_addition_snd]
    · rw [if_neg h2]
      by_cases h3 : a.sign ∧ b.sign
      · simp [h3]
      · simp only [if_neg h3]
        exact subtraction_positive_case_snd _ _ _

/-- C10: for every pair of big_integers (all sign combinations, any relative
sizes) and either SIMD setting, `big_integer_addition` and
`big_integer_subtraction` return with the second operand holding exactly the
sign flag and magnitude bytes it held on entry — including on the paths that
temporarily clear its sign or overwrite it and restore it from a clone. -/
theorem claim_C10 (a b : big_integer) (simd : Bool) :
    (big_integer_addition a b simd).2 = b ∧
    (big_integer_subtraction a b simd).2 = b :=
  ⟨big_integer_addition_snd a b simd, big_integer_subtraction_snd a b simd⟩

/-!
## Claim C6: signed comparison against a small integer
-/

/-- C6 counterexample: for a = −1 (sign set, byte [1]) and b_small = −2 the
comparison −1 ≥ −2 is true, but `big_integer_greater_equal_int16` returns
false. -/
theorem claim_C6_counterexample :
    big_integer_greater_equal_int16 ⟨true, [1]⟩ (-2) false = false ∧
    (-2 : Int) ≤ big_integer.val ⟨true, [1]⟩ := by
  decide

theorem valLE_head_tail (l : List Nat) (h : l ≠ []) :
    valLE l = l.getD 0 0 + 256 * valLE l.tail := by
  cases l with
  | nil => exact absurd rfl h
  | cons x xs => rfl

/-- C6 amended: `ge_small(a, b_small)` with `b_small ∈ [-256, 256]` returns
`a ≥ b_small` whenever `a` and `b_small` are not both strictly negative; when
both are strictly negative it always returns false (after the sign
short-circuits, `first_byte > b` holds for every byte against a negative
`b`). -/
theorem claim_C6_amended (a : big_integer) (b : Int) (simd : Bool)
    (hb1 : -256 ≤ b) (hb2 : b ≤ 256) :
    big_integer_greater_equal_int16 a b simd =
      if a.val < 0 ∧ b < 0 then false else decide (b ≤ a.val) := by
  unfold big_integer_greater_equal_int16
  rw [is_zero_flag]
  have hz_iff : big_integer_is_zero_sisd a = true ↔ valLE a.mem = 0 := by
    simp [big_integer_is_zero_sisd, List.all_eq_true, valLE_eq_zero_iff]
  have hval : a.val = if a.sign then -(valLE a.mem : Int) else (valLE a.mem : Int) := rfl
  have hany : ((List.drop 1 a.mem).any (fun x => decide ¬x = 0)) =
      decide (valLE a.mem.tail ≠ 0) := by
    rcases hd : decide (valLE a.mem.tail ≠ 0) with _ | _
    · rw [List.any_eq_false]
      intro x hx
      have htz : valLE a.mem.tail = 0 := by
        have := of_decide_eq_false hd
        by_contra hc
        exact this hc
      rw [← List.drop_one] at htz
      have := (valLE_eq_zero_iff _).mp htz x hx
      simp [this]
    · rw [List.any_eq_true]
      have htz : valLE a.mem.tail ≠ 0 := of_decide_eq_true hd
      have := (valLE_eq_zero_iff (a.mem.drop 1)).not.mp
        (by rw [List.drop_one]; exact htz)
      push_neg at this
      obtain ⟨x, hx, hx0⟩ := this
      exact ⟨x, hx, by simpa using hx0⟩
  by_cases hz : valLE a.mem = 0
  · have hzt : big_integer_is_zero_sisd a = true := hz_iff.mpr hz
    have hv0 : a.val = 0 := by
      rw [hval, hz]
      cases a.sign <;> simp
    rw [hzt, hv0]
    rcases lt_trichotomy b 0 with hb | hb | hb
    · rw [if_neg (fun h => by omega), if_pos ⟨rfl, hb⟩,
        if_neg (fun h => absurd h.1 (by omega))]
      have : decide (b ≤ (0:Int)) = true := decide_eq_true (by omega)
      rw [this]
    · subst hb
      rw [if_pos ⟨rfl, rfl⟩, if_neg (fun h => absurd h.2 (by omega))]
      have : decide ((0:Int) ≤ 0) = true := decide_eq_true le_rfl
      rw [this]
    · rw [if_neg (fun h => by omega), if_neg (fun h => by omega), if_pos ⟨rfl, hb⟩,
        if_neg (fun h => absurd h.1 (by omega))]
      have : decide (b ≤ (0:Int)) = false := decide_eq_false (by omega)
      rw [this]
  · have hzf : big_integer_is_zero_sisd a = false := by
      cases h : big_integer_is_zero_sisd a
      · rfl
      · exact absurd (hz_iff.mp h) hz
    have hmemne : a.mem ≠ [] := fun h => hz (by rw [h]; rfl)
    have hsplit : valLE a.mem = a.mem.getD 0 0 + 256 * valLE a.mem.tail :=
      valLE_head_tail a.mem hmemne
    have hv1 : 1 ≤ valLE a.mem := by omega
    have hfbnn : (0:Int) ≤ (a.mem.getD 0 0 : Int) := Int.ofNat_nonneg _
    rw [hzf]
    rw [if_neg (fun h => absurd h.1 (by simp)), if_neg (fun h => absurd h.1 (by simp)),
      if_neg (fun h => absurd h.1 (by simp))]
    cases hsign : a.sign with
    | true =>
      have hv : a.val = -(valLE a.mem : Int) := by rw [hval, hsign]; simp
      have hvneg : a.val < 0 := by omega
      by_cases hb0 : 0 ≤ b
      · rw [if_pos ⟨rfl, hb0⟩, if_neg (fun h => absurd h.2 (by omega))]
        have : decide (b ≤ a.val) = false := decide_eq_false (by omega)
        rw [this]
      · rw [if_neg (fun h => absurd h.2 (by omega)),
          if_neg (fun h => absurd h.1 (by simp)),
          if_neg (fun h => absurd h.1 (by simp)),
          if_neg (fun h => absurd h.1 (by simp)),
          if_pos ⟨rfl, by unfold get_byte_value_of_big_integer; omega⟩,
          if_pos ⟨hvneg, by omega⟩]
    | false =>
      have hv : a.val = (valLE a.mem : Int) := by rw [hval, hsign]; simp
      have hfb_eq : get_byte_value_of_big_integer a 0 = a.mem.getD 0 0 := rfl
      rw [if_neg (fun h => absurd h.1 (by simp) : ¬((false:Bool) = true ∧ b ≥ 0))]
      by_cases hb0 : b ≤ 0
      · rw [if_pos ⟨rfl, hb0⟩, if_neg (fun h => by omega)]
        have : decide (b ≤ a.val) = true := decide_eq_true (by omega)
        rw [this]
      · rw [if_neg (fun h => absurd h.2 (by omega))]
        by_cases h1 : (get_byte_value_of_big_integer a 0 : Int) = b
        · rw [if_pos ⟨rfl, h1⟩, if_neg (fun h => by omega)]
          have : decide (b ≤ a.val) = true := decide_eq_true (by
            rw [hfb_eq] at h1
            omega)
          rw [this]
        · rw [if_neg (fun h => absurd h.2 h1)]
          by_cases h2 : (get_byte_value_of_big_integer a 0 : Int) > b
          · rw [if_pos ⟨rfl, h2⟩, if_neg (fun h => by omega)]
            have : decide (b ≤ a.val) = true := decide_eq_true (by
              rw [hfb_eq] at h2
              omega)
            rw [this]
          · rw [if_neg (fun h => absurd h.2 h2),
              if_neg (fun h => absurd h.1 (by simp))]
            rw [hany]
            rw [if_neg (fun h => absurd h (by simp) : ¬((false:Bool) = true)),
              if_neg (fun h => by omega)]
            have hfb_lt : (a.mem.getD 0 0 : Int) < b := by
              rw [hfb_eq] at h1 h2
              omega
            rcases Nat.eq_zero_or_pos (valLE a.mem.tail) with htz | htz
            · have hd : decide (valLE a.mem.tail ≠ 0) = false :=
                decide_eq_false (by omega)
              rw [hd]
              have : decide (b ≤ a.val) = false := decide_eq_false (by omega)
              rw [this]
            · have hd : decide (valLE a.mem.tail ≠ 0) = true :=
                decide_eq_true (by omega)
              rw [hd]
              have : decide (b ≤ a.val) = true := decide_eq_true (by omega)
              rw [this]

/-- Witness for the amended C6 at a concrete input (a = +5, b_small = 3). -/
theorem claim_C6_amended_witness :
    big_integer_greater_equal_int16 ⟨false, [5]⟩ 3 false =
      if big_integer.val ⟨false, [5]⟩ < 0 ∧ (3:Int) < 0 then false
      else decide ((3:Int) ≤ big_integer.val ⟨false, [5]⟩) :=
  claim_C6_amended ⟨false, [5]⟩ 3 false (by decide) (by decide)

/-!
## Bitwise facts and the left-shift loops
-/

theorem lor_two_pow_mul_add {i : Nat} (a : Nat) {b : Nat} (hb : b < 2 ^ i) :
    (2 ^ i * a) ||| b = 2 ^ i * a + b := by
  apply Nat.eq_of_testBit_eq
  intro j
  rw [Nat.testBit_or, Nat.testBit_mul_pow_two, Nat.testBit_mul_pow_two_add a hb j]
  by_cases hj : j < i
  · simp [hj, Nat.not_le_of_lt hj]
  · have hji : i ≤ j := Nat.le_of_not_lt hj
    have : b.testBit j = false :=
      Nat.testBit_lt_two_pow (lt_of_lt_of_le hb (Nat.pow_le_pow_right (by omega) hji))
    simp [hj, hji, this]

theorem shiftLeft_lor_small (x k c : Nat) (hc : c < 2 ^ k) :
    (x <<< k) ||| c = x * 2 ^ k + c := by
  rw [Nat.shiftLeft_eq, mul_comm x (2 ^ k), lor_two_pow_mul_add x hc]

theorem valLE_take_drop (n : Nat) (l : List Nat) :
    valLE l = valLE (l.take n) + 256 ^ (l.take n).length * valLE (l.drop n) := by
  conv_lhs => rw [← List.take_append_drop n l]
  rw [valLE_append]

/-- Characterization of the sequential small left shift: the buffer afterwards
holds the low bytes of `value · 2^k + carry_in`. -/
theorem shl_bits_sisd_loop_eq (l : List Nat) (k : Nat) (hk : k ≤ 7) :
    ∀ c, WfBytes l → c < 2 ^ k →
      shl_bits_sisd_loop l k c = natLEBytes l.length (valLE l * 2 ^ k + c) := by
  induction l with
  | nil =>
    intro c _ _
    rfl
  | cons x xs ih =>
    intro c hl hc
    have hx : x < 256 := hl x (by simp)
    have hxs : WfBytes xs := fun y hy => hl y (by simp [hy])
    have hsh : (x <<< k) ||| c = x * 2 ^ k + c := shiftLeft_lor_small x k c hc
    have hlt : x * 2 ^ k + c < 256 * 2 ^ k := by
      have h1 : x * 2 ^ k ≤ 255 * 2 ^ k := Nat.mul_le_mul_right _ (by omega)
      have h2 : (255:Nat) * 2 ^ k + 2 ^ k = 256 * 2 ^ k := by ring
      omega
    have hcarry : (x * 2 ^ k + c) / 256 < 2 ^ k := by
      have h256 : 0 < (256:Nat) := by omega
      rw [Nat.div_lt_iff_lt_mul h256]
      calc x * 2 ^ k + c < 256 * 2 ^ k := hlt
      _ = 2 ^ k * 256 := by ring
    have hcarry' : (x * 2 ^ k + c) / 256 % 256 = (x * 2 ^ k + c) / 256 := by
      apply Nat.mod_eq_of_lt
      have : (2:Nat) ^ k ≤ 2 ^ 7 := Nat.pow_le_pow_right (by omega) hk
      omega
    have hsplit : (x + 256 * valLE xs) * 2 ^ k + c =
        (x * 2 ^ k + c) + 256 * (valLE xs * 2 ^ k) := by ring
    simp only [shl_bits_sisd_loop, hsh, hcarry', List.length_cons, natLEBytes_succ,
      valLE_cons, hsplit]
    rw [Nat.add_mul_mod_self_left, Nat.add_mul_div_left _ _ (show 0 < 256 by omega)]
    rw [ih _ hxs hcarry, Nat.add_comm ((x * 2 ^ k + c) / 256) (valLE xs * 2 ^ k)]

theorem valLE_lt_of_length_le (l : List Nat) (m : Nat) (hw : WfBytes l)
    (hm : l.length ≤ m) : valLE l < 256 ^ m :=
  lt_of_lt_of_le (valLE_lt l hw) (Nat.pow_le_pow_right (by omega) hm)

/-!
## Characterization of the sequential addition and subtraction loops
-/

/-- The sequential addition loop computes the low bytes of
`valLE a + valLE (b.take a.length) + c` and carries out its overflow bit. -/
theorem addition_sisd_loop_eq (a : List Nat) : ∀ b c, WfBytes a → WfBytes b →
    c ≤ 1 →
    addition_sisd_loop a b c =
      (natLEBytes a.length (valLE a + valLE (b.take a.length) + c),
       (valLE a + valLE (b.take a.length) + c) / 256 ^ a.length) := by
  induction a with
  | nil =>
    intro b c _ _ hc
    simp [addition_sisd_loop]
  | cons x xs ih =>
    intro b c hwa hwb hc
    have hx : x < 256 := hwa x (by simp)
    have hwxs : WfBytes xs := fun y hy => hwa y (by simp [hy])
    cases b with
    | nil =>
      have hcarry_le : (x + c) / 256 % 2 ≤ 1 := by omega
      have h1 : (x + c) / 256 % 2 = (x + c) / 256 := by omega
      simp only [addition_sisd_loop]
      rw [h1, ih [] ((x + c) / 256) hwxs (fun y hy => by simp at hy) (by omega)]
      simp only [List.take_nil, valLE_nil, List.length_cons, natLEBytes_succ,
        valLE_cons, Prod.mk.injEq, List.cons.injEq]
      refine ⟨⟨by omega, ?_⟩, ?_⟩
      · congr 1
        omega
      · rw [pow_succ, mul_comm (256 ^ xs.length) 256, ← Nat.div_div_eq_div_mul]
        congr 1
        omega
    | cons y ys =>
      have hy : y < 256 := hwb y (by simp)
      have hwys : WfBytes ys := fun z hz => hwb z (by simp [hz])
      have h1 : (x + y + c) / 256 % 2 = (x + y + c) / 256 := by omega
      simp only [addition_sisd_loop]
      rw [h1, ih ys ((x + y + c) / 256) hwxs hwys (by omega)]
      simp only [List.length_cons, List.take_succ_cons, natLEBytes_succ,
        valLE_cons, Prod.mk.injEq, List.cons.injEq]
      refine ⟨⟨by omega, ?_⟩, ?_⟩
      · congr 1
        omega
      · rw [pow_succ, mul_comm (256 ^ xs.length) 256, ← Nat.div_div_eq_div_mul]
        congr 1
        omega

/-- The sequential subtraction loop computes the low bytes of
`valLE a - valLE (b.take a.length) - c` (wrapped modulo `256 ^ a.length`) and
borrows out exactly when the subtraction underflows. -/
theorem subtraction_sisd_loop_eq (a : List Nat) : ∀ b c, WfBytes a → WfBytes b →
    c ≤ 1 →
    subtraction_sisd_loop a b c =
      (natLEBytes a.length (valLE a + 256 ^ a.length - valLE (b.take a.length) - c),
       if valLE a < valLE (b.take a.length) + c then 1 else 0) := by
  induction a with
  | nil =>
    intro b c _ _ hc
    simp only [subtraction_sisd_loop, List.length_nil, natLEBytes_zero,
      List.take_zero, valLE_nil, Prod.mk.injEq, true_and]
    split_ifs <;> omega
  | cons x xs ih =>
    intro b c hwa hwb hc
    have hx : x < 256 := hwa x (by simp)
    have hwxs : WfBytes xs := fun y hy => hwa y (by simp [hy])
    have hvxs : valLE xs < 256 ^ xs.length := valLE_lt xs hwxs
    have hP : 1 ≤ 256 ^ xs.length := Nat.one_le_pow _ _ (by omega)
    have hpow : (256:Nat) ^ (xs.length + 1) = 256 * 256 ^ xs.length := by
      rw [pow_succ]
      ring
    cases b with
    | nil =>
      have h1 : (65536 + x - c) % 65536 / 32768 % 2 = if x < c then 1 else 0 := by
        split_ifs <;> omega
      simp only [subtraction_sisd_loop]
      rw [h1, ih [] (if x < c then 1 else 0) hwxs (fun y hy => by simp at hy)
        (by split_ifs <;> omega)]
      simp only [List.take_nil, valLE_nil, List.length_cons, natLEBytes_succ,
        valLE_cons, Prod.mk.injEq, List.cons.injEq, hpow]
      refine ⟨⟨by omega, ?_⟩, ?_⟩
      · congr 1
        split_ifs <;> omega
      · split_ifs <;> omega
    | cons y ys =>
      have hy : y < 256 := hwb y (by simp)
      have hwys : WfBytes ys := fun z hz => hwb z (by simp [hz])
      have hvys : valLE (ys.take xs.length) < 256 ^ xs.length :=
        valLE_lt_of_length_le _ _ (fun z hz => hwys z (List.mem_of_mem_take hz))
          (by simp)
      have h1 : (65536 + x - y - c) % 65536 / 32768 % 2 =
          if x < y + c then 1 else 0 := by
        split_ifs <;> omega
      simp only [subtraction_sisd_loop]
      rw [h1, ih ys (if x < y + c then 1 else 0) hwxs hwys
        (by split_ifs <;> omega)]
      simp only [List.take_succ_cons, List.length_cons, natLEBytes_succ,
        valLE_cons, Prod.mk.injEq, List.cons.injEq, hpow]
      refine ⟨⟨by omega, ?_⟩, ?_⟩
      · congr 1
        split_ifs <;> omega
      · split_ifs <;> omega

/-!
## The SIMD chunk computations
-/

theorem natLEBytes_add_split (m n x : Nat) :
    natLEBytes (m + n) x = natLEBytes m x ++ natLEBytes n (x / 256 ^ m) := by
  induction m generalizing x with
  | zero => simp [natLEBytes]
  | succ m ih =>
    have : m + 1 + n = (m + n) + 1 := by omega
    rw [this]
    simp only [natLEBytes_succ, ih, List.cons_append]
    congr 2
    rw [Nat.div_div_eq_div_mul, pow_succ, mul_comm (256 ^ m) 256]

/-- The biased signed comparison implements the unsigned comparison: after
subtracting `2^63` from both lanes, `_mm_cmpgt_epi64` on the two's-complement
readings decides `v < u`. -/
theorem toSigned64_bias (u : Nat) (hu : u < 2 ^ 64) :
    toSigned64 ((u + 2 ^ 64 - 2 ^ 63) % 2 ^ 64) = (u : Int) - 2 ^ 63 := by
  unfold toSigned64
  by_cases h : u < 2 ^ 63
  · have h1 : (u + 2 ^ 64 - 2 ^ 63) % 2 ^ 64 = u + 2 ^ 63 := by omega
    rw [h1, if_neg (by omega)]
    push_cast
    ring
  · have h1 : (u + 2 ^ 64 - 2 ^ 63) % 2 ^ 64 = u - 2 ^ 63 := by omega
    rw [h1, if_pos (by omega)]
    have : (((u - 2 ^ 63 : Nat)) : Int) = (u : Int) - 2 ^ 63 := by
      have : (2:Nat) ^ 63 ≤ u := by omega
      omega
    rw [this]

theorem biased_gt_iff (u v : Nat) (hu : u < 2 ^ 64) (hv : v < 2 ^ 64) :
    (toSigned64 ((u + 2 ^ 64 - 2 ^ 63) % 2 ^ 64) >
      toSigned64 ((v + 2 ^ 64 - 2 ^ 63) % 2 ^ 64)) ↔ v < u := by
  rw [toSigned64_bias u hu, toSigned64_bias v hv]
  omega

/-- The 15-byte SIMD addition chunk adds the two 120-bit values with the
incoming carry and produces the exact low 15 bytes and the bit-120 carry. -/
theorem addition_simd_chunk_eq (x y : List Nat) (c : Nat) (hwx : WfBytes x)
    (hwy : WfBytes y) (hlx : x.length = 15) (hly : y.length = 15) (hc : c ≤ 1) :
    addition_simd_chunk x y c =
      (natLEBytes 15 (valLE x + valLE y + c), (valLE x + valLE y + c) / 2 ^ 120) := by
  have hxlow : valLE (x.take 8) < 2 ^ 64 := by
    have := valLE_lt_of_length_le (x.take 8) 8
      (fun z hz => hwx z (List.mem_of_mem_take hz)) (by simp)
    calc valLE (x.take 8) < 256 ^ 8 := this
    _ = 2 ^ 64 := by norm_num
  have hylow : valLE (y.take 8) < 2 ^ 64 := by
    have := valLE_lt_of_length_le (y.take 8) 8
      (fun z hz => hwy z (List.mem_of_mem_take hz)) (by simp)
    calc valLE (y.take 8) < 256 ^ 8 := this
    _ = 2 ^ 64 := by norm_num
  have hxhigh : valLE (x.drop 8) < 2 ^ 56 := by
    have := valLE_lt_of_length_le (x.drop 8) 7
      (fun z hz => hwx z (List.mem_of_mem_drop hz)) (by simp [hlx])
    calc valLE (x.drop 8) < 256 ^ 7 := this
    _ = 2 ^ 56 := by norm_num
  have hyhigh : valLE (y.drop 8) < 2 ^ 56 := by
    have := valLE_lt_of_length_le (y.drop 8) 7
      (fun z hz => hwy z (List.mem_of_mem_drop hz)) (by simp [hly])
    calc valLE (y.drop 8) < 256 ^ 7 := this
    _ = 2 ^ 56 := by norm_num
  unfold addition_simd_chunk
  dsimp only
  simp only [biased_gt_iff _ _ hxlow (Nat.mod_lt _ (by norm_num)),
    biased_gt_iff _ _ hylow (Nat.mod_lt _ (by norm_num))]
  set aLow := valLE (x.take 8) with haLow
  set bLow := valLE (y.take 8) with hbLow
  set aHigh := valLE (x.drop 8) with haHigh
  set bHigh := valLE (y.drop 8) with hbHigh
  have hcarry_iff :
      ((aLow + bLow + c) % 2 ^ 64 < aLow ∨ (aLow + bLow + c) % 2 ^ 64 < bLow) ∨
        aLow = 2 ^ 64 - 1 ∧ bLow = 2 ^ 64 - 1 ∧ c = 1 ↔
      2 ^ 64 ≤ aLow + bLow + c := by
    constructor
    · intro h
      rcases h with (h | h) | ⟨h1, h2, h3⟩
      · by_contra hlt
        rw [Nat.mod_eq_of_lt (by omega)] at h
        omega
      · by_contra hlt
        rw [Nat.mod_eq_of_lt (by omega)] at h
        omega
      · omega
    · intro h
      by_cases hb : bLow = 2 ^ 64 - 1 ∧ c = 1
      · by_cases ha : aLow = 2 ^ 64 - 1
        · exact Or.inr ⟨ha, hb.1, hb.2⟩
        · refine Or.inl (Or.inr ?_)
          have : (aLow + bLow + c) % 2 ^ 64 = aLow + bLow + c - 2 ^ 64 := by
            omega
          omega
      · refine Or.inl (Or.inl ?_)
        have : (aLow + bLow + c) % 2 ^ 64 = aLow + bLow + c - 2 ^ 64 := by
          omega
        omega
  have hmin : (256:Nat) ^ min 8 15 = 2 ^ 64 := by norm_num
  have hval_split_x : valLE x = aLow + 2 ^ 64 * aHigh := by
    have h := valLE_take_drop 8 x
    rw [List.length_take, hlx, hmin] at h
    exact h
  have hval_split_y : valLE y = bLow + 2 ^ 64 * bHigh := by
    have h := valLE_take_drop 8 y
    rw [List.length_take, hly, hmin] at h
    exact h
  have hS : valLE x + valLE y + c =
      (aLow + bLow + c) + 2 ^ 64 * (aHigh + bHigh) := by
    rw [hval_split_x, hval_split_y]
    ring
  by_cases hov : 2 ^ 64 ≤ aLow + bLow + c
  · rw [if_pos (hcarry_iff.mpr hov)]
    have hrl : (aLow + bLow + c) % 2 ^ 64 = aLow + bLow + c - 2 ^ 64 := by omega
    have hrh : (aHigh + bHigh) % 2 ^ 64 = aHigh + bHigh := by
      apply Nat.mod_eq_of_lt
      omega
    have hrh1 : ((aHigh + bHigh) % 2 ^ 64 + 1) % 2 ^ 64 = aHigh + bHigh + 1 := by
      rw [hrh]
      apply Nat.mod_eq_of_lt
      omega
    rw [hrh1, Prod.mk.injEq]
    constructor
    · -- the written-back 15 bytes
      have h15 : (15:Nat) = 8 + 7 := by norm_num
      rw [h15, natLEBytes_add_split 8 7, hS]
      congr 1
      · rw [← natLEBytes_mod 8 ((aLow + bLow + c) % 2 ^ 64),
          ← natLEBytes_mod 8 (aLow + bLow + c + 2 ^ 64 * (aHigh + bHigh))]
        congr 1
        have h256 : (256:Nat) ^ 8 = 2 ^ 64 := by norm_num
        rw [h256]
        omega
      · congr 1
        have h256 : (256:Nat) ^ 8 = 2 ^ 64 := by norm_num
        rw [h256]
        omega
    · -- the carry bit
      have h120 : (2:Nat) ^ 120 = 2 ^ 64 * 2 ^ 56 := by norm_num
      rw [hS, h120]
      rw [← Nat.div_div_eq_div_mul]
      have hdiv : (aLow + bLow + c + 2 ^ 64 * (aHigh + bHigh)) / 2 ^ 64 =
          aHigh + bHigh + 1 := by
        omega
      rw [hdiv]
      have hlt : aHigh + bHigh + 1 < 2 ^ 57 := by omega
      have h48 : (aHigh + bHigh + 1) / 2 ^ 48 % 2 ^ 16 / 2 ^ 8 % 2 =
          (aHigh + bHigh + 1) / 2 ^ 56 := by
        omega
      rw [h48]
  · rw [if_neg (fun h => hov (hcarry_iff.mp h))]
    have hrl : (aLow + bLow + c) % 2 ^ 64 = aLow + bLow + c := Nat.mod_eq_of_lt (by omega)
    have hrh : (aHigh + bHigh) % 2 ^ 64 = aHigh + bHigh := Nat.mod_eq_of_lt (by omega)
    rw [hrh, Prod.mk.injEq]
    constructor
    · have h15 : (15:Nat) = 8 + 7 := by norm_num
      rw [h15, natLEBytes_add_split 8 7, hS]
      congr 1
      · rw [← natLEBytes_mod 8 ((aLow + bLow + c) % 2 ^ 64),
          ← natLEBytes_mod 8 (aLow + bLow + c + 2 ^ 64 * (aHigh + bHigh))]
        congr 1
        have h256 : (256:Nat) ^ 8 = 2 ^ 64 := by norm_num
        rw [h256]
        omega
      · congr 1
        have h256 : (256:Nat) ^ 8 = 2 ^ 64 := by norm_num
        rw [h256]
        omega
    · have h120 : (2:Nat) ^ 120 = 2 ^ 64 * 2 ^ 56 := by norm_num
      rw [hS, h120, ← Nat.div_div_eq_div_mul]
      have hdiv : (aLow + bLow + c + 2 ^ 64 * (aHigh + bHigh)) / 2 ^ 64 =
          aHigh + bHigh := by
        omega
      rw [hdiv]
      have h48 : (aHigh + bHigh) / 2 ^ 48 % 2 ^ 16 / 2 ^ 8 % 2 =
          (aHigh + bHigh) / 2 ^ 56 := by
        omega
      rw [h48]

theorem natLEBytes_congr (k : Nat) {A B : Nat} (h : A % 256 ^ k = B % 256 ^ k) :
    natLEBytes k A = natLEBytes k B := by
  rw [← natLEBytes_mod k A, h, natLEBytes_mod]

set_option maxRecDepth 4000 in
/-- The 15-byte SIMD subtraction chunk subtracts the two 120-bit values with
the incoming borrow, writing back the wrapped low 15 bytes and borrowing out
exactly on underflow (bit 127 of the lane pair). -/
theorem subtraction_simd_chunk_eq (x y : List Nat) (c : Nat) (hwx : WfBytes x)
    (hwy : WfBytes y) (hlx : x.length = 15) (hly : y.length = 15) (hc : c ≤ 1) :
    subtraction_simd_chunk x y c =
      (natLEBytes 15 (valLE x + 2 ^ 120 - valLE y - c),
       if valLE x < valLE y + c then 1 else 0) := by
  have hxlow : valLE (x.take 8) < 2 ^ 64 := by
    have := valLE_lt_of_length_le (x.take 8) 8
      (fun z hz => hwx z (List.mem_of_mem_take hz)) (by simp)
    calc valLE (x.take 8) < 256 ^ 8 := this
    _ = 2 ^ 64 := by norm_num
  have hylow : valLE (y.take 8) < 2 ^ 64 := by
    have := valLE_lt_of_length_le (y.take 8) 8
      (fun z hz => hwy z (List.mem_of_mem_take hz)) (by simp)
    calc valLE (y.take 8) < 256 ^ 8 := this
    _ = 2 ^ 64 := by norm_num
  have hxhigh : valLE (x.drop 8) < 2 ^ 56 := by
    have := valLE_lt_of_length_le (x.drop 8) 7
      (fun z hz => hwx z (List.mem_of_mem_drop hz)) (by simp [hlx])
    calc valLE (x.drop 8) < 256 ^ 7 := this
    _ = 2 ^ 56 := by norm_num
  have hyhigh : valLE (y.drop 8) < 2 ^ 56 := by
    have := valLE_lt_of_length_le (y.drop 8) 7
      (fun z hz => hwy z (List.mem_of_mem_drop hz)) (by simp [hly])
    calc valLE (y.drop 8) < 256 ^ 7 := this
    _ = 2 ^ 56 := by norm_num
  unfold subtraction_simd_chunk
  dsimp only
  simp only [biased_gt_iff _ _ (Nat.mod_lt _ (by norm_num)) hxlow]
  set aLow := valLE (x.take 8) with haLow
  set bLow := valLE (y.take 8) with hbLow
  set aHigh := valLE (x.drop 8) with haHigh
  set bHigh := valLE (y.drop 8) with hbHigh
  set resultLow := ((aLow + 2 ^ 64 - bLow) % 2 ^ 64 + 2 ^ 64 - c) % 2 ^ 64
    with hresultLow
  have hborrow_iff : (aLow < resultLow ∨ bLow = 2 ^ 64 - 1 ∧ c = 1) ↔
      aLow < bLow + c := by
    constructor
    · intro h
      rcases h with h | ⟨h1, h2⟩
      · by_contra hge
        have : resultLow = aLow - bLow - c := by
          rw [hresultLow]
          omega
        omega
      · omega
    · intro h
      by_cases hb : bLow = 2 ^ 64 - 1 ∧ c = 1
      · exact Or.inr hb
      · refine Or.inl ?_
        have : resultLow = aLow + 2 ^ 64 - bLow - c := by
          rw [hresultLow]
          omega
        omega
  have hmin : (256:Nat) ^ min 8 15 = 2 ^ 64 := by norm_num
  have hval_split_x : valLE x = aLow + 2 ^ 64 * aHigh := by
    have h := valLE_take_drop 8 x
    rw [List.length_take, hlx, hmin] at h
    exact h
  have hval_split_y : valLE y = bLow + 2 ^ 64 * bHigh := by
    have h := valLE_take_drop 8 y
    rw [List.length_take, hly, hmin] at h
    exact h
  have hD : valLE x + 2 ^ 120 - valLE y - c =
      aLow + 2 ^ 64 * aHigh + 2 ^ 120 - (bLow + 2 ^ 64 * bHigh) - c := by
    rw [hval_split_x, hval_split_y]
  rw [Prod.mk.injEq]
  by_cases hlow : aLow < bLow + c
  · rw [if_pos (hborrow_iff.mpr hlow)]
    have hrl : resultLow = aLow + 2 ^ 64 - bLow - c := by
      rw [hresultLow]
      omega
    constructor
    · have h15 : (15:Nat) = 8 + 7 := by norm_num
      rw [h15, natLEBytes_add_split 8 7, hD]
      have h256 : (256:Nat) ^ 8 = 2 ^ 64 := by norm_num
      have h2567 : (256:Nat) ^ 7 = 2 ^ 56 := by norm_num
      have e1 : natLEBytes 8 resultLow =
          natLEBytes 8 (aLow + 2 ^ 64 * aHigh + 2 ^ 120 -
            (bLow + 2 ^ 64 * bHigh) - c) := by
        apply natLEBytes_congr
        rw [h256, hrl]
        omega
      have e2 : natLEBytes 7 (((aHigh + 2 ^ 64 - bHigh) % 2 ^ 64 + 2 ^ 64 - 1) % 2 ^ 64) =
          natLEBytes 7 ((aLow + 2 ^ 64 * aHigh + 2 ^ 120 -
            (bLow + 2 ^ 64 * bHigh) - c) / 256 ^ 8) := by
        apply natLEBytes_congr
        rw [h256, h2567]
        omega
      rw [e1, e2]
    · by_cases hch : valLE x < valLE y + c
      · rw [if_pos hch]
        rw [hval_split_x, hval_split_y] at hch
        omega
      · rw [if_neg hch]
        rw [hval_split_x, hval_split_y] at hch
        omega
  · rw [if_neg (fun h => hlow (hborrow_iff.mp h))]
    have hrl : resultLow = aLow - bLow - c := by
      rw [hresultLow]
      omega
    constructor
    · have h15 : (15:Nat) = 8 + 7 := by norm_num
      rw [h15, natLEBytes_add_split 8 7, hD]
      have h256 : (256:Nat) ^ 8 = 2 ^ 64 := by norm_num
      have h2567 : (256:Nat) ^ 7 = 2 ^ 56 := by norm_num
      have e1 : natLEBytes 8 resultLow =
          natLEBytes 8 (aLow + 2 ^ 64 * aHigh + 2 ^ 120 -
            (bLow + 2 ^ 64 * bHigh) - c) := by
        apply natLEBytes_congr
        rw [h256, hrl]
        omega
      have e2 : natLEBytes 7 ((aHigh + 2 ^ 64 - bHigh) % 2 ^ 64) =
          natLEBytes 7 ((aLow + 2 ^ 64 * aHigh + 2 ^ 120 -
            (bLow + 2 ^ 64 * bHigh) - c) / 256 ^ 8) := by
        apply natLEBytes_congr
        rw [h256, h2567]
        omega
      rw [e1, e2]
    · by_cases hch : valLE x < valLE y + c
      · rw [if_pos hch]
        rw [hval_split_x, hval_split_y] at hch
        omega
      · rw [if_neg hch]
        rw [hval_split_x, hval_split_y] at hch
        omega

/-!
## SIMD loops agree with the sequential loops
-/

theorem addition_sisd_loop_split (n : Nat) : ∀ (a b : List Nat) (c : Nat),
    n ≤ a.length →
    addition_sisd_loop a b c =
      ((addition_sisd_loop (a.take n) (b.take n) c).1 ++
        (addition_sisd_loop (a.drop n) (b.drop n)
          (addition_sisd_loop (a.take n) (b.take n) c).2).1,
       (addition_sisd_loop (a.drop n) (b.drop n)
          (addition_sisd_loop (a.take n) (b.take n) c).2).2) := by
  induction n with
  | zero =>
    intro a b c _
    simp [addition_sisd_loop]
  | succ n ih =>
    intro a b c hn
    cases a with
    | nil => simp at hn
    | cons x xs =>
      cases b with
      | nil =>
        simp only [List.take_succ_cons, List.drop_succ_cons, List.take_nil,
          List.drop_nil, addition_sisd_loop]
        rw [ih xs [] ((x + c) / 256 % 2) (by simpa using hn)]
        simp [addition_sisd_loop]
      | cons y ys =>
        simp only [List.take_succ_cons, List.drop_succ_cons, addition_sisd_loop]
        rw [ih xs ys ((x + y + c) / 256 % 2) (by simpa using hn)]
        simp [addition_sisd_loop]

theorem subtraction_sisd_loop_split (n : Nat) : ∀ (a b : List Nat) (c : Nat),
    n ≤ a.length →
    subtraction_sisd_loop a b c =
      ((subtraction_sisd_loop (a.take n) (b.take n) c).1 ++
        (subtraction_sisd_loop (a.drop n) (b.drop n)
          (subtraction_sisd_loop (a.take n) (b.take n) c).2).1,
       (subtraction_sisd_loop (a.drop n) (b.drop n)
          (subtraction_sisd_loop (a.take n) (b.take n) c).2).2) := by
  induction n with
  | zero =>
    intro a b c _
    simp [subtraction_sisd_loop]
  | succ n ih =>
    intro a b c hn
    cases a with
    | nil => simp at hn
    | cons x xs =>
      cases b with
      | nil =>
        simp only [List.take_succ_cons, List.drop_succ_cons, List.take_nil,
          List.drop_nil, subtraction_sisd_loop]
        rw [ih xs [] ((65536 + x - c) % 65536 / 32768 % 2) (by simpa using hn)]
        simp [subtraction_sisd_loop]
      | cons y ys =>
        simp only [List.take_succ_cons, List.drop_succ_cons, subtraction_sisd_loop]
        rw [ih xs ys ((65536 + x - y - c) % 65536 / 32768 % 2) (by simpa using hn)]
        simp [subtraction_sisd_loop]

theorem WfBytes_take (n : Nat) (l : List Nat) (h : WfBytes l) :
    WfBytes (l.take n) := fun x hx => h x (List.mem_of_mem_take hx)

theorem WfBytes_drop (n : Nat) (l : List Nat) (h : WfBytes l) :
    WfBytes (l.drop n) := fun x hx => h x (List.mem_of_mem_drop hx)

theorem length_take_of_le {n : Nat} {l : List Nat} (h : n ≤ l.length) :
    (l.take n).length = n := by
  simp [List.length_take]
  omega

theorem addition_simd_go_eq (fuel : Nat) : ∀ (a b : List Nat) (c : Nat),
    WfBytes a → WfBytes b → c ≤ 1 →
    addition_simd_go fuel a b c = addition_sisd_loop a b c := by
  induction fuel with
  | zero =>
    intro a b c _ _ _
    rfl
  | succ fuel ih =>
    intro a b c hwa hwb hc
    simp only [addition_simd_go]
    by_cases h15 : 15 ≤ a.length ∧ 15 ≤ b.length
    · rw [if_pos h15]
      have hta : (a.take 15).length = 15 := length_take_of_le h15.1
      have htb : (b.take 15).length = 15 := length_take_of_le h15.2
      have hchunk := addition_simd_chunk_eq (a.take 15) (b.take 15) c
        (WfBytes_take _ _ hwa) (WfBytes_take _ _ hwb) hta htb hc
      have hS1 : valLE (a.take 15) + valLE (b.take 15) + c < 2 * 2 ^ 120 := by
        have h1 : valLE (a.take 15) < 2 ^ 120 := by
          have := valLE_lt _ (WfBytes_take 15 a hwa)
          rw [hta] at this
          calc valLE (a.take 15) < 256 ^ 15 := this
          _ = 2 ^ 120 := by norm_num
        have h2 : valLE (b.take 15) < 2 ^ 120 := by
          have := valLE_lt _ (WfBytes_take 15 b hwb)
          rw [htb] at this
          calc valLE (b.take 15) < 256 ^ 15 := this
          _ = 2 ^ 120 := by norm_num
        omega
      have hc2 : (valLE (a.take 15) + valLE (b.take 15) + c) / 2 ^ 120 ≤ 1 := by
        omega
      have hsisd_chunk : addition_sisd_loop (a.take 15) (b.take 15) c =
          (natLEBytes 15 (valLE (a.take 15) + valLE (b.take 15) + c),
           (valLE (a.take 15) + valLE (b.take 15) + c) / 2 ^ 120) := by
        rw [addition_sisd_loop_eq (a.take 15) (b.take 15) c
          (WfBytes_take _ _ hwa) (WfBytes_take _ _ hwb) hc, hta]
        rw [show (b.take 15).take 15 = b.take 15 by
          rw [List.take_take]
          norm_num]
        rw [show (256:Nat) ^ 15 = 2 ^ 120 by norm_num]
      rw [hchunk, ih (a.drop 15) (b.drop 15) _ (WfBytes_drop _ _ hwa)
        (WfBytes_drop _ _ hwb) hc2]
      rw [addition_sisd_loop_split 15 a b c (by omega), hsisd_chunk]
    · rw [if_neg h15]
      by_cases h7 : 7 ≤ a.length ∧ 7 ≤ b.length
      · rw [if_pos h7]
        have hta : (a.take 7).length = 7 := length_take_of_le h7.1
        have htb : (b.take 7).length = 7 := length_take_of_le h7.2
        have h1 : valLE (a.take 7) < 2 ^ 56 := by
          have := valLE_lt _ (WfBytes_take 7 a hwa)
          rw [hta] at this
          calc valLE (a.take 7) < 256 ^ 7 := this
          _ = 2 ^ 56 := by norm_num
        have h2 : valLE (b.take 7) < 2 ^ 56 := by
          have := valLE_lt _ (WfBytes_take 7 b hwb)
          rw [htb] at this
          calc valLE (b.take 7) < 256 ^ 7 := this
          _ = 2 ^ 56 := by norm_num
        have hsum : (valLE (a.take 7) + valLE (b.take 7) + c) % 2 ^ 64 =
            valLE (a.take 7) + valLE (b.take 7) + c := Nat.mod_eq_of_lt (by omega)
        have hcarry : (valLE (a.take 7) + valLE (b.take 7) + c) / 2 ^ 56 % 2 =
            (valLE (a.take 7) + valLE (b.take 7) + c) / 2 ^ 56 := by
          omega
        have hc2 : (valLE (a.take 7) + valLE (b.take 7) + c) / 2 ^ 56 ≤ 1 := by
          omega
        have hsisd_chunk : addition_sisd_loop (a.take 7) (b.take 7) c =
            (natLEBytes 7 (valLE (a.take 7) + valLE (b.take 7) + c),
             (valLE (a.take 7) + valLE (b.take 7) + c) / 2 ^ 56) := by
          rw [addition_sisd_loop_eq (a.take 7) (b.take 7) c
            (WfBytes_take _ _ hwa) (WfBytes_take _ _ hwb) hc, hta]
          rw [show (b.take 7).take 7 = b.take 7 by
            rw [List.take_take]
            norm_num]
          rw [show (256:Nat) ^ 7 = 2 ^ 56 by norm_num]
        rw [hsum, hcarry, ih (a.drop 7) (b.drop 7) _ (WfBytes_drop _ _ hwa)
          (WfBytes_drop _ _ hwb) hc2]
        rw [addition_sisd_loop_split 7 a b c (by omega), hsisd_chunk]
      · rw [if_neg h7]

theorem subtraction_simd_go_eq (fuel : Nat) : ∀ (a b : List Nat) (c : Nat),
    WfBytes a → WfBytes b → c ≤ 1 →
    subtraction_simd_go fuel a b c = subtraction_sisd_loop a b c := by
  induction fuel with
  | zero =>
    intro a b c _ _ _
    rfl
  | succ fuel ih =>
    intro a b c hwa hwb hc
    simp only [subtraction_simd_go]
    by_cases h15 : 15 ≤ a.length ∧ 15 ≤ b.length
    · rw [if_pos h15]
      have hta : (a.take 15).length = 15 := length_take_of_le h15.1
      have htb : (b.take 15).length = 15 := length_take_of_le h15.2
      have hchunk := subtraction_simd_chunk_eq (a.take 15) (b.take 15) c
        (WfBytes_take _ _ hwa) (WfBytes_take _ _ hwb) hta htb hc
      have hc2 : (if valLE (a.take 15) < valLE (b.take 15) + c then 1 else 0) ≤ 1 := by
        split_ifs <;> omega
      have hsisd_chunk : subtraction_sisd_loop (a.take 15) (b.take 15) c =
          (natLEBytes 15 (valLE (a.take 15) + 2 ^ 120 - valLE (b.take 15) - c),
           if valLE (a.take 15) < valLE (b.take 15) + c then 1 else 0) := by
        rw [subtraction_sisd_loop_eq (a.take 15) (b.take 15) c
          (WfBytes_take _ _ hwa) (WfBytes_take _ _ hwb) hc, hta]
        rw [show (b.take 15).take 15 = b.take 15 by
          rw [List.take_take]
          norm_num]
        rw [show (256:Nat) ^ 15 = 2 ^ 120 by norm_num]
      rw [hchunk, ih (a.drop 15) (b.drop 15) _ (WfBytes_drop _ _ hwa)
        (WfBytes_drop _ _ hwb) hc2]
      rw [subtraction_sisd_loop_split 15 a b c (by omega), hsisd_chunk]
    · rw [if_neg h15]
      by_cases h7 : 7 ≤ a.length ∧ 7 ≤ b.length
      · rw [if_pos h7]
        have hta : (a.take 7).length = 7 := length_take_of_le h7.1
        have htb : (b.take 7).length = 7 := length_take_of_le h7.2
        have h1 : valLE (a.take 7) < 2 ^ 56 := by
          have := valLE_lt _ (WfBytes_take 7 a hwa)
          rw [hta] at this
          calc valLE (a.take 7) < 256 ^ 7 := this
          _ = 2 ^ 56 := by norm_num
        have h2 : valLE (b.take 7) < 2 ^ 56 := by
          have := valLE_lt _ (WfBytes_take 7 b hwb)
          rw [htb] at this
          calc valLE (b.take 7) < 256 ^ 7 := this
          _ = 2 ^ 56 := by norm_num
        have hbytes : natLEBytes 7 (((valLE (a.take 7) + 2 ^ 64 - valLE (b.take 7)) %
            2 ^ 64 + 2 ^ 64 - c) % 2 ^ 64) =
            natLEBytes 7 (valLE (a.take 7) + 2 ^ 56 - valLE (b.take 7) - c) := by
          apply natLEBytes_congr
          rw [show (256:Nat) ^ 7 = 2 ^ 56 by norm_num]
          omega
        have hcarry : ((valLE (a.take 7) + 2 ^ 64 - valLE (b.take 7)) % 2 ^ 64 +
            2 ^ 64 - c) % 2 ^ 64 / 2 ^ 56 % 2 =
            if valLE (a.take 7) < valLE (b.take 7) + c then 1 else 0 := by
          split_ifs <;> omega
        have hc2 : (if valLE (a.take 7) < valLE (b.take 7) + c then 1 else 0) ≤ 1 := by
          split_ifs <;> omega
        have hsisd_chunk : subtraction_sisd_loop (a.take 7) (b.take 7) c =
            (natLEBytes 7 (valLE (a.take 7) + 2 ^ 56 - valLE (b.take 7) - c),
             if valLE (a.take 7) < valLE (b.take 7) + c then 1 else 0) := by
          rw [subtraction_sisd_loop_eq (a.take 7) (b.take 7) c
            (WfBytes_take _ _ hwa) (WfBytes_take _ _ hwb) hc, hta]
          rw [show (b.take 7).take 7 = b.take 7 by
            rw [List.take_take]
            norm_num]
          rw [show (256:Nat) ^ 7 = 2 ^ 56 by norm_num]
        rw [hbytes, hcarry, ih (a.drop 7) (b.drop 7) _ (WfBytes_drop _ _ hwa)
          (WfBytes_drop _ _ hwb) hc2]
        rw [subtraction_sisd_loop_split 7 a b c (by omega), hsisd_chunk]
      · rw [if_neg h7]

end IntBaseArith
